import Mathlib

/-!
# Port scanner: target and port parsing, banner heuristics, scan orchestration

A verification development for the Go packages `internal/network` and
`internal/scanner`.

A Go `string` is an immutable sequence of bytes, not necessarily valid UTF-8;
it is embedded as a list of byte values.  Go `int` is 64 bits wide; it is
embedded as `Int`, and every place where the width could matter says so.
Library functions of the Go standard distribution (`strings`, `strconv`,
`unicode/utf8`, `net`) are embedded by their documented behaviour, in the
namespace `Go`; functions of the repository keep their names, in namespaces
named after their packages.
-/

/-- A Go string: its bytes in order (each below 256). -/
abbrev GoString := List Nat

namespace Go

/-! ## unicode/utf8 -/

/-- The rune U+FFFD that decoding yields for a byte that starts no valid encoding. -/
def RuneError : Nat := 65533

/-- Whether a byte is a continuation byte `10xxxxxx`. -/
def isCont (b : Nat) : Bool := 128 ≤ b && b ≤ 191

/-- `utf8.DecodeRuneInString`: the first rune of `s` and its width in bytes.
An empty string gives `(RuneError, 0)`, an invalid or truncated encoding
`(RuneError, 1)`.  The bit operations of the library (`s0&mask<<6 | s1&maskx`)
are written with `%` and `*`. -/
def DecodeRuneInString : GoString → Nat × Nat
  | [] => (RuneError, 0)
  | s0 :: rest =>
    if s0 < 128 then (s0, 1)
    else if 194 ≤ s0 ∧ s0 ≤ 223 then
      match rest with
      | s1 :: _ => if isCont s1 then ((s0 % 32) * 64 + s1 % 64, 2) else (RuneError, 1)
      | _ => (RuneError, 1)
    else if 224 ≤ s0 ∧ s0 ≤ 239 then
      match rest with
      | s1 :: s2 :: _ =>
        let lo := if s0 = 224 then 160 else 128
        let hi := if s0 = 237 then 159 else 191
        if lo ≤ s1 ∧ s1 ≤ hi ∧ isCont s2 then
          ((s0 % 16) * 4096 + (s1 % 64) * 64 + s2 % 64, 3)
        else (RuneError, 1)
      | _ => (RuneError, 1)
    else if 240 ≤ s0 ∧ s0 ≤ 244 then
      match rest with
      | s1 :: s2 :: s3 :: _ =>
        let lo := if s0 = 240 then 144 else 128
        let hi := if s0 = 244 then 143 else 191
        if lo ≤ s1 ∧ s1 ≤ hi ∧ isCont s2 ∧ isCont s3 then
          ((s0 % 8) * 262144 + (s1 % 64) * 4096 + (s2 % 64) * 64 + s3 % 64, 4)
        else (RuneError, 1)
      | _ => (RuneError, 1)
    else (RuneError, 1)

/-- The runes that `for _, r := range s` yields, in order.  Each iteration
decodes one rune and advances by its width; `fuel` bounds the number of
iterations and `s.length` always suffices. -/
def runesAux : Nat → GoString → List Nat
  | 0, _ => []
  | fuel + 1, s =>
    match s with
    | [] => []
    | _ :: _ =>
      let d := DecodeRuneInString s
      d.1 :: runesAux fuel (s.drop d.2)

/-- The runes of `s` as a `range` loop sees them. -/
def runes (s : GoString) : List Nat := runesAux s.length s

/-- `utf8.AppendRune` on an empty buffer, also the conversion `string(r)`:
the UTF-8 encoding of `r`, and that of U+FFFD when `r` is a surrogate or
beyond U+10FFFF. -/
def EncodeRune (r : Nat) : GoString :=
  if r < 128 then [r]
  else if r < 2048 then [192 + r / 64, 128 + r % 64]
  else if (55296 ≤ r ∧ r ≤ 57343) ∨ 1114111 < r then [239, 191, 189]
  else if r < 65536 then [224 + r / 4096, 128 + (r / 64) % 64, 128 + r % 64]
  else [240 + r / 262144, 128 + (r / 4096) % 64, 128 + (r / 64) % 64, 128 + r % 64]

/-- The bytes of a string literal of the source: its UTF-8 encoding. -/
def str (s : String) : GoString := (s.toList.map (fun c => EncodeRune c.toNat)).flatten

/-- `utf8.DecodeLastRuneInString`: the last rune of `s` and its width. -/
def DecodeLastRuneInString (s : GoString) : Nat × Nat :=
  let e := s.length
  if e = 0 then (RuneError, 0)
  else
    let last := s.getD (e - 1) 0
    if last < 128 then (last, 1)
    else
      -- the backward scan for a byte that can start a rune, at most three bytes back
      let start :=
        if 2 ≤ e ∧ ¬ isCont (s.getD (e - 2) 0) then e - 2
        else if 3 ≤ e ∧ ¬ isCont (s.getD (e - 3) 0) then e - 3
        else if 4 ≤ e ∧ ¬ isCont (s.getD (e - 4) 0) then e - 4
        else e - 5
      let d := DecodeRuneInString (s.drop start)
      if start + d.2 ≠ e then (RuneError, 1) else d

/-! ## unicode -/

/-- `unicode.IsSpace`: the white space property of Unicode. -/
def IsSpace (r : Nat) : Bool :=
  (9 ≤ r && r ≤ 13) || r = 32 || r = 133 || r = 160 || r = 5760 ||
  (8192 ≤ r && r ≤ 8202) || r = 8232 || r = 8233 || r = 8239 || r = 8287 || r = 12288

/-! ## strings -/

/-- `strings.TrimLeftFunc(s, unicode.IsSpace)`: `s` without its leading white space. -/
def trimLeftAux : Nat → GoString → GoString
  | 0, s => s
  | fuel + 1, s =>
    match s with
    | [] => []
    | _ :: _ =>
      let d := DecodeRuneInString s
      if IsSpace d.1 then trimLeftAux fuel (s.drop d.2) else s

/-- `strings.TrimRightFunc(s, unicode.IsSpace)`: `s` without its trailing white space. -/
def trimRightAux : Nat → GoString → GoString
  | 0, s => s
  | fuel + 1, s =>
    match s with
    | [] => []
    | _ :: _ =>
      let d := DecodeLastRuneInString s
      if IsSpace d.1 then trimRightAux fuel (s.take (s.length - d.2)) else s

/-- `strings.TrimSpace`: `s` with all leading and trailing white space removed,
as defined by Unicode. -/
def TrimSpace (s : GoString) : GoString :=
  let t := trimLeftAux s.length s
  trimRightAux t.length t

/-- Whether `sub` occurs in `s` starting at its first byte. -/
def HasPrefix (s sub : GoString) : Bool := sub.isPrefixOf s

/-- `strings.Contains(s, sub)`: whether `sub` occurs in `s`. -/
def Contains : GoString → GoString → Bool
  | [], sub => sub.isEmpty
  | c :: s, sub => HasPrefix (c :: s) sub || Contains s sub

/-- `strings.Split(s, sep)` for a separator of one byte: the pieces of `s`
between the occurrences of `sep`, of which there is always at least one. -/
def Split (s : GoString) (sep : Nat) : List GoString :=
  match s with
  | [] => [[]]
  | c :: rest =>
    if c = sep then [] :: Split rest sep
    else
      match Split rest sep with
      | [] => [[c]]
      | p :: ps => (c :: p) :: ps

/-! ## strconv -/

/-- The value of a string of decimal digits, `none` when a byte is not a digit. -/
def digitsValue : GoString → Nat → Option Nat
  | [], acc => some acc
  | ch :: rest, acc =>
    if 48 ≤ ch ∧ ch ≤ 57 then digitsValue rest (acc * 10 + (ch - 48)) else none

/-- `strconv.Atoi` on a 64-bit platform: an optional sign, then one or more
decimal digits; the value has to fit `int`.  `none` stands for a returned error. -/
def Atoi (s : GoString) : Option Int :=
  match s with
  | [] => none
  | c :: rest =>
    let neg := c = 45
    let digits := if c = 45 ∨ c = 43 then rest else s
    if digits = [] then none
    else
      match digitsValue digits 0 with
      | none => none
      | some v =>
        if neg then (if v ≤ 2 ^ 63 then some (-(v : Int)) else none)
        else (if v < 2 ^ 63 then some (v : Int) else none)

end Go

open Go

deriving instance DecidableEq for Except

namespace Go

/-! ## net -/

/-- The type `net.IP`: the bytes of an address, 4 or 16 of them; `nil` is the empty list. -/
abbrev IP := List Nat

/-- The type `net.IPMask`. -/
abbrev IPMask := List Nat

/-- The type `net.IPNet`: a network number and its mask. -/
structure IPNet where
  IP : Go.IP
  Mask : Go.IPMask
  deriving DecidableEq, Repr

/-- The `n` low bytes of `v`, the most significant first. -/
def beBytes : Nat → Nat → List Nat
  | 0, _ => []
  | n + 1, v => beBytes n (v / 256) ++ [v % 256]

/-- The twelve bytes that precede an IPv4 address in its 16-byte form. -/
def v4InV6 : List Nat := [0, 0, 0, 0, 0, 0, 0, 0, 0, 0, 255, 255]

/-- The type `netip.Addr` without zone: an IPv4 address of 32 bits or an IPv6
address of 128 bits, as a number (taken modulo its width). -/
inductive Addr where
  | v4 (v : Nat)
  | v6 (v : Nat)
  deriving DecidableEq, Repr

/-- `netip.Addr.BitLen`. -/
def Addr.BitLen : Addr → Nat
  | .v4 _ => 32
  | .v6 _ => 128

/-- `netip.Addr.As16`: the 16-byte form, an IPv4 address as IPv4-mapped IPv6. -/
def Addr.As16 : Addr → IP
  | .v4 v => v4InV6 ++ beBytes 4 v
  | .v6 v => beBytes 16 v

/-- The loop of `net.CIDRMask` over the `l` bytes still to fill, `n` ones left:
`0xff` while eight ones are left, then `^byte(0xff >> n)`, then zeros. -/
def cidrMaskLoop : Nat → Nat → IPMask
  | 0, _ => []
  | l + 1, n =>
    if 8 ≤ n then 255 :: cidrMaskLoop l (n - 8)
    else (255 - 255 >>> n) :: cidrMaskLoop l 0

/-- `net.CIDRMask(ones, bits)`: `ones` one bits followed by zeros, `nil` when
the arguments are out of range. -/
def CIDRMask (ones bits : Nat) : IPMask :=
  if bits ≠ 32 ∧ bits ≠ 128 then []
  else if bits < ones then []
  else cidrMaskLoop (bits / 8) ones

/-- `net.IP.To4`: the 4-byte form of an IPv4 address, `none` for `nil`. -/
def IP.To4 (ip : IP) : Option IP :=
  if ip.length = 4 then some ip
  else if ip.length = 16 ∧ ip.take 12 = v4InV6 then some (ip.drop 12)
  else none

/-- `net.IP.Mask`: the bytes of `ip` and-ed with those of `mask`, `nil` when the
lengths do not fit. -/
def IP.Mask (ip : IP) (mask : IPMask) : IP :=
  let mask := if mask.length = 16 ∧ ip.length = 4 ∧ (mask.take 12).all (· = 255)
    then mask.drop 12 else mask
  let ip := if mask.length = 4 ∧ ip.length = 16 ∧ ip.take 12 = v4InV6
    then ip.drop 12 else ip
  if ip.length ≠ mask.length then []
  else List.zipWith (· &&& ·) ip mask

/-- The function `networkNumberAndMask` of package `net`; `([], [])` is `nil, nil`. -/
def networkNumberAndMask (n : IPNet) : IP × IPMask :=
  let ip? : Option IP :=
    match n.IP.To4 with
    | some ip => some ip
    | none => if n.IP.length ≠ 16 then none else some n.IP
  match ip? with
  | none => ([], [])
  | some ip =>
    if n.Mask.length = 4 then
      if ip.length ≠ 4 then ([], []) else (ip, n.Mask)
    else if n.Mask.length = 16 then
      if ip.length = 4 then (ip, n.Mask.drop 12) else (ip, n.Mask)
    else ([], [])

/-- `net.IPNet.Contains`: whether `ip`, masked, is the network number, masked.
The loop over the byte positions is written as a comparison of the two masked
lists, which have the same length when it is reached. -/
def IPNet.Contains (n : IPNet) (ip : Go.IP) : Bool :=
  let nm := networkNumberAndMask n
  let ip := match ip.To4 with
    | some x => x
    | none => ip
  if ip.length ≠ nm.1.length then false
  else decide (List.zipWith (· &&& ·) nm.1 nm.2 = List.zipWith (· &&& ·) ip nm.2)

/-- The function `dtoi` of package `net` as `ParseCIDR` uses it: the value of a
text that consists of decimal digits only, at least one, and stays below
`0xFFFFFF`; `none` otherwise. -/
def dtoiAux : GoString → Nat → Option Nat
  | [], n => some n
  | ch :: rest, n =>
    if 48 ≤ ch ∧ ch ≤ 57 then
      if 16777215 ≤ n * 10 + (ch - 48) then none else dtoiAux rest (n * 10 + (ch - 48))
    else none

/-- The prefix length that `net.ParseCIDR` reads after the slash. -/
def dtoi (s : GoString) : Option Nat :=
  if s = [] then none else dtoiAux s 0

/-- `strings.IndexByte`: the position of the first byte `c` of `s`. -/
def IndexByte : GoString → Nat → Option Nat
  | [], _ => none
  | b :: rest, c => if b = c then some 0 else (IndexByte rest c).map (· + 1)

/-- `net.ParseCIDR`: the address and the network of a text `address/length`.
The syntax of addresses is that of `netip.ParseAddr`, a parameter here (`none`
for a text it rejects, or one with a zone).  `none` stands for the returned error. -/
def ParseCIDR (ParseAddr : GoString → Option Addr) (s : GoString) : Option (IP × IPNet) :=
  match IndexByte s 47 with
  | none => none
  | some i =>
    match ParseAddr (s.take i) with
    | none => none
    | some ipAddr =>
      match dtoi (s.drop (i + 1)) with
      | none => none
      | some n =>
        if ipAddr.BitLen < n then none
        else
          let m := CIDRMask n ipAddr.BitLen
          some (ipAddr.As16, { IP := IP.Mask ipAddr.As16 m, Mask := m })

end Go

namespace network

/-- The errors of `ParsePortRange`, one constructor for each `fmt.Errorf` of the
source; the argument is the text the message quotes. -/
inductive PortError where
  | invalidRange (part : GoString)
  | invalidStart (text : GoString)
  | invalidEnd (text : GoString)
  | rangeBounds
  | invalidPort (part : GoString)
  | portBounds
  deriving DecidableEq, Repr

/-- The loop `for i := start; i <= end; i++ { ports = append(ports, i) }`,
entered with `i` and the slice built so far; `fuel` bounds the iterations. -/
def rangeLoopAux : Nat → Int → Int → List Int → List Int
  | 0, _, _, ports => ports
  | fuel + 1, i, stop, ports =>
    if i ≤ stop then rangeLoopAux fuel (i + 1) stop (ports ++ [i]) else ports

/-- The loop `for i := start; i <= end; i++ { ports = append(ports, i) }`.  It
runs `end + 1 - start` times when that is positive, and this fuel lets the loop
end by its own test (`rangeLoopAux_fuel`). -/
def rangeLoop (start stop : Int) (ports : List Int) : List Int :=
  rangeLoopAux (stop + 1 - start).toNat start stop ports

/-- One iteration of the loop over `parts` in `ParsePortRange`: the body run on
`part` with the slice `ports` built so far.  An error stands for the early
return `nil, err`. -/
def parsePart (ports : List Int) (part : GoString) : Except PortError (List Int) :=
  let part := TrimSpace part
  if Contains part [45] then
    let rangeParts := Split part 45
    if rangeParts.length ≠ 2 then .error (.invalidRange part)
    else
      match Atoi (TrimSpace (rangeParts.getD 0 [])) with
      | none => .error (.invalidStart (rangeParts.getD 0 []))
      | some start =>
        match Atoi (TrimSpace (rangeParts.getD 1 [])) with
        | none => .error (.invalidEnd (rangeParts.getD 1 []))
        | some stop =>
          if start < 1 ∨ start > 65535 ∨ stop < 1 ∨ stop > 65535 then .error .rangeBounds
          else .ok (rangeLoop start stop ports)
  else
    match Atoi part with
    | none => .error (.invalidPort part)
    | some port =>
      if port < 1 ∨ port > 65535 then .error .portBounds
      else .ok (ports ++ [port])

/-- The loop `for _, part := range parts` of `ParsePortRange`. -/
def parseParts : List GoString → List Int → Except PortError (List Int)
  | [], ports => .ok ports
  | part :: rest, ports =>
    match parsePart ports part with
    | .error e => .error e
    | .ok ports => parseParts rest ports

/-- `ParsePortRange`: the ports a specifier such as `1-1024`, `80` or
`22,80,443` names.  `.ok ports` is the return `ports, nil` (a nil slice is the
empty list), `.error e` the return `nil, e`. -/
def ParsePortRange (portStr : GoString) : Except PortError (List Int) :=
  if portStr = [] then .ok []
  else parseParts (Split portStr 44) []

/-- What the package takes from the Go library and the model leaves open: the
address syntax of `netip.ParseAddr` and the text `net.IP.String` prints. -/
structure NetLib where
  ParseAddr : GoString → Option Addr
  String : IP → GoString

/-- The error of `parseCIDR`: invalid CIDR notation. -/
inductive HostError where
  | invalidCIDR
  deriving DecidableEq, Repr

/-- The loop of `inc` from the last byte on, the bytes given last first: add one,
and go on to the next byte while the sum wrapped to zero. -/
def incFrom : List Nat → List Nat
  | [] => []
  | b :: bs =>
    if 0 < (b + 1) % 256 then (b + 1) % 256 :: bs
    else (b + 1) % 256 :: incFrom bs

/-- `inc`: increments an IP address, in place in the source. -/
def inc (ip : IP) : IP := (incFrom ip.reverse).reverse

/-- The loop `for ip := ...; ipnet.Contains(ip); inc(ip) { hosts = append(hosts, ip.String()) }`
of `parseCIDR`, entered with `ip` and the hosts so far.  `none` when the loop
is still running after `fuel` tests of its condition. -/
def hostLoop (lib : NetLib) (ipnet : IPNet) : Nat → IP → List GoString → Option (List GoString)
  | 0, _, _ => none
  | fuel + 1, ip, hosts =>
    if ipnet.Contains ip then hostLoop lib ipnet fuel (inc ip) (hosts ++ [lib.String ip])
    else some hosts

/-- `parseCIDR`: all hosts of a subnet in CIDR notation, without the network and
broadcast addresses of a typical subnet.  `none` when the loop does not end
within `fuel` steps. -/
def parseCIDR (lib : NetLib) (fuel : Nat) (cidr : GoString) :
    Option (Except HostError (List GoString)) :=
  match ParseCIDR lib.ParseAddr cidr with
  | none => some (.error .invalidCIDR)
  | some (ip, ipnet) =>
    match hostLoop lib ipnet fuel (ip.Mask ipnet.Mask) [] with
    | none => none
    | some hosts =>
      if 2 < hosts.length then some (.ok ((hosts.take (hosts.length - 1)).drop 1))
      else some (.ok hosts)

/-- `ParseHosts`: a single host, or the hosts of a CIDR subnet. -/
def ParseHosts (lib : NetLib) (fuel : Nat) (hostStr : GoString) :
    Option (Except HostError (List GoString)) :=
  if Contains hostStr [47] then parseCIDR lib fuel hostStr
  else some (.ok [hostStr])

/-- A library instance for the worked examples: `ParseAddr` reads the four
address texts used there and `String` prints the bytes themselves. -/
def exampleLib : NetLib where
  ParseAddr := fun s =>
    if s = str "10.1.2.3" then some (.v4 167838211)
    else if s = str "0.0.0.0" then some (.v4 0)
    else if s = str "::" then some (.v6 0)
    else if s = str "2001:db8::" then some (.v6 (8193 * 2 ^ 112 + 3512 * 2 ^ 96))
    else none
  String := id

end network

/-! ## The port specifier as the specification words it -/

namespace network

/-- Spec side: the port a text names, when it is a decimal integer within 1..65535. -/
def specPort (s : GoString) : Option Int :=
  match Atoi s with
  | some n => if 1 ≤ n ∧ n ≤ 65535 then some n else none
  | none => none

/-- Spec side: the inclusive ascending list `a, a+1, ..., b`, empty when `a > b`. -/
def specAscending (a b : Int) : List Int :=
  (List.range (b + 1 - a).toNat).map (fun (k : Nat) => a + (k : Int))

/-- Spec side: what one token of a specifier contributes.  A token without a
dash is a single value and contributes `[n]`; a token `start-end` with exactly
one dash contributes the ascending list between its endpoints; `none` when the
token, or an endpoint, is not a decimal integer within 1..65535. -/
def specToken (t : GoString) : Option (List Int) :=
  if 45 ∈ t then
    match Split t 45 with
    | [sa, sb] =>
      match specPort (TrimSpace sa), specPort (TrimSpace sb) with
      | some a, some b => some (specAscending a b)
      | _, _ => none
    | _ => none
  else
    match specPort t with
    | some n => some [n]
    | none => none

/-- Spec side: the tokens of a specifier, the trimmed pieces between its commas. -/
def specTokens (portStr : GoString) : List GoString :=
  (Split portStr 44).map TrimSpace

/-- Spec side: the tokens of a specifier as the parser's contract reads them.
The empty string is not a list of tokens but the signal that the caller supplies
its own ports, and has none; any other specifier has the trimmed pieces between
its commas. -/
def specSpecifierTokens (portStr : GoString) : List GoString :=
  if portStr = [] then [] else specTokens portStr

/-- Spec side: whether the token `t` covers the port `n`. -/
def specCovers (n : Int) (t : GoString) : Bool :=
  match specToken t with
  | some c => decide (n ∈ c)
  | none => false

end network


namespace Go

/-- `unicode.ToLower` on one rune.  ASCII letters are mapped by the library's
own arithmetic; for the runes from 128 on the case tables of Unicode are a
parameter (`table`). -/
def ToLowerRune (table : Nat → Nat) (r : Nat) : Nat :=
  if r < 128 then (if 65 ≤ r ∧ r ≤ 90 then r + 32 else r) else table r

/-- `strings.ToLower`: every rune of `s` mapped to lower case and encoded again;
a byte that starts no valid encoding comes out as the image of U+FFFD. -/
def ToLower (table : Nat → Nat) (s : GoString) : GoString :=
  ((runes s).map (fun r => EncodeRune (ToLowerRune table r))).flatten

/-- Spec side: an ASCII capital letter turned into its small letter, any other
byte left alone. -/
def asciiLower (b : Nat) : Nat := if 65 ≤ b ∧ b ≤ 90 then b + 32 else b

/-- Spec side: whether `banner` contains `sub` in any letter case, that is
whether `sub` occurs once the ASCII capitals of `banner` are made small. -/
def specContainsAnyCase (banner sub : GoString) : Bool :=
  Contains (banner.map asciiLower) sub

end Go

namespace scanner

/-- The test of `cleanBanner` on a rune: printable ASCII, newline, carriage
return or tab. -/
def keepRune (r : Nat) : Bool :=
  (32 ≤ r && r ≤ 126) || r = 10 || r = 13 || r = 9

/-- `cleanBanner`: removes non-printable characters and trims the banner. -/
def cleanBanner (banner : GoString) : GoString :=
  let cleaned := (runes banner).filter keepRune
  let result := (cleaned.map EncodeRune).flatten
  if 200 < result.length then result.take 200 ++ str "..." else result

/-- The copy of the banner that `GetBody` searches: every rune from `A` to `Z`
replaced by `r + 32`, every rune converted back with `string(r)`. -/
def lowerBanner (cleanedBanner : GoString) : GoString :=
  ((runes cleanedBanner).map
    (fun r => if 65 ≤ r ∧ r ≤ 90 then EncodeRune (r + 32) else EncodeRune r)).flatten

/-- The first loop of `GetBody`: the first `i < len(lowerBanner)-5` at which
`<body` starts, then the first `j ≥ i` with `lowerBanner[j] == '>'`; the result
is `j + 1`, and `none` stands for `bodyStart == -1`. -/
def findBodyStart (lower : GoString) : Option Nat :=
  match (List.range (lower.length - 5)).find? (fun i => (lower.drop i).take 5 = str "<body") with
  | none => none
  | some i =>
    match ((List.range lower.length).drop i).find? (fun j => lower.getD j 0 = 62) with
    | none => none
    | some j => some (j + 1)

/-- The second loop of `GetBody`: the first `i < len(lowerBanner)-7` at which
`</body>` starts; `none` stands for `bodyEnd == -1`. -/
def findBodyEnd (lower : GoString) : Option Nat :=
  (List.range (lower.length - 7)).find? (fun i => (lower.drop i).take 7 = str "</body>")

/-- `GetBody`: the text between the body tags of a banner.  `none` stands for
the run-time panic of the slice expression `cleanedBanner[bodyStart:bodyEnd]`
when `bodyEnd` exceeds the length of the banner. -/
def GetBody (cleanedBanner : GoString) : Option GoString :=
  let lower := lowerBanner cleanedBanner
  match findBodyStart lower, findBodyEnd lower with
  | some bodyStart, some bodyEnd =>
    if bodyStart < bodyEnd then
      if bodyEnd ≤ cleanedBanner.length then some ((cleanedBanner.take bodyEnd).drop bodyStart)
      else none
    else some []
  | _, _ => some []

/-- `ServiceSignatures`: common port numbers and their service names. -/
def ServiceSignatures : List (Int × GoString) :=
  [(21, str "FTP"), (22, str "SSH"), (23, str "Telnet"), (25, str "SMTP"), (53, str "DNS"),
   (80, str "HTTP"), (110, str "POP3"), (143, str "IMAP"), (443, str "HTTPS"), (445, str "SMB"),
   (3306, str "MySQL"), (3389, str "RDP"), (5432, str "PostgreSQL"), (5900, str "VNC"),
   (6379, str "Redis"), (8080, str "HTTP-Proxy"), (8443, str "HTTPS-Alt"),
   (9200, str "Elasticsearch"), (27017, str "MongoDB")]

/-- The map `signatures` of `detectServiceFromBanner`, in the order of the source. -/
def signatures : List (GoString × GoString) :=
  [(str "ssh-", str "SSH"), (str "http/", str "HTTP"), (str "ftp", str "FTP"),
   (str "smtp", str "SMTP"), (str "pop3", str "POP3"), (str "imap", str "IMAP"),
   (str "mysql", str "MySQL"), (str "postgresql", str "PostgreSQL"), (str "redis", str "Redis"),
   (str "mongodb", str "MongoDB"), (str "nginx", str "nginx"), (str "apache", str "Apache"),
   (str "microsoft", str "Microsoft")]

/-- `detectServiceFromBanner`: the service of the first signature, in the order
the map is ranged over, that the lower-cased banner contains; the empty string
when there is none.  Go leaves the order of a `range` over a map open: `order`
is the order of this call, some permutation of `signatures`. -/
def detectServiceFromBanner (table : Nat → Nat) (order : List (GoString × GoString))
    (banner : GoString) : GoString :=
  let bannerLower := ToLower table banner
  match order.find? (fun sig => Contains bannerLower sig.1) with
  | some sig => sig.2
  | none => []

/-- `IdentifyService`: the service of a port and its banner. -/
def IdentifyService (table : Nat → Nat) (order : List (GoString × GoString))
    (port : Int) (banner : GoString) : GoString :=
  match ServiceSignatures.lookup port with
  | some service =>
    if banner ≠ [] ∧ detectServiceFromBanner table order banner ≠ [] then
      service ++ str " (" ++ detectServiceFromBanner table order banner ++ str ")"
    else service
  | none =>
    if banner ≠ [] ∧ detectServiceFromBanner table order banner ≠ [] then
      detectServiceFromBanner table order banner
    else str "Unknown"

end scanner

namespace scanner

/-- Spec side: the characters a cleaned banner is made of: the printable ASCII
characters (codes 32 to 126), newline, carriage return and tab. -/
def specAllowed (c : Nat) : Bool :=
  decide ((32 ≤ c ∧ c ≤ 126) ∨ c = 10 ∨ c = 13 ∨ c = 9)

/-- Spec side: the input with all other characters removed. -/
def specStripped (banner : GoString) : GoString := banner.filter specAllowed

end scanner

namespace scanner

/-- `PortStatus`: the status of a scanned port.  The source declares a string
type with three constants, the only values `ScanPort` assigns. -/
inductive PortStatus where
  | StatusOpen
  | StatusClosed
  | StatusFiltered
  deriving DecidableEq, Repr

/-- `ScanResult`: the result of scanning a single port. -/
structure ScanResult where
  Host : GoString
  Port : Int
  Status : PortStatus
  Service : GoString
  Banner : GoString
  Body : GoString
  deriving DecidableEq, Repr

/-- `ScanConfig`: the configuration of the scanner; durations in nanoseconds. -/
structure ScanConfig where
  Host : GoString
  Ports : List Int
  Timeout : Int
  MaxConcurrency : Int
  RandomizeOrder : Bool
  DelayBetween : Int
  deriving DecidableEq, Repr

/-- `ScanStatistics`: overall scan statistics. -/
structure ScanStatistics where
  TotalPorts : Int
  OpenPorts : Int
  ClosedPorts : Int
  FilteredPorts : Int
  ScanDuration : Int
  deriving DecidableEq, Repr

/-- The zero value `ScanStatistics{}`. -/
def ScanStatistics.zero : ScanStatistics :=
  { TotalPorts := 0, OpenPorts := 0, ClosedPorts := 0, FilteredPorts := 0, ScanDuration := 0 }

/-- `Scanner`: the scan orchestrator, here its configuration; the statistics it
owns are part of the state of a run (`RunState.stats`). -/
structure Scanner where
  config : ScanConfig
  deriving DecidableEq, Repr

/-- `NewScanner`: a scanner for the configuration, with the defaults set where a
field is zero (two seconds, 100 workers). -/
def NewScanner (config : ScanConfig) : Scanner :=
  let config := if config.Timeout = 0 then { config with Timeout := 2000000000 } else config
  let config := if config.MaxConcurrency = 0 then { config with MaxConcurrency := 100 } else config
  { config := config }

/-- A value of type `int64` after an operation that may overflow: the result
wrapped into the range of the type. -/
def wrap64 (x : Int) : Int := (x + 2 ^ 63) % 2 ^ 64 - 2 ^ 63

/-- One step of the generator of `customShufflePorts`:
`seed = (seed*1103515245 + 12345) & 0x7fffffff` on `int64`.  The mask keeps the
31 low bits, which for a number in two's complement is its residue modulo `2^31`. -/
def lcgNext (seed : Int) : Int := wrap64 (wrap64 (seed * 1103515245) + 12345) % 2147483648

/-- The assignment `ports[i], ports[j] = ports[j], ports[i]`. -/
def swapPorts (ports : List Int) (i j : Nat) : List Int :=
  (ports.set i (ports.getD j 0)).set j (ports.getD i 0)

/-- The loop `for i := n - 1; i > 0; i--` of `customShufflePorts`, entered with
the value of `i`, the seed and the slice. -/
def shuffleLoop : Nat → Int → List Int → List Int
  | 0, _, ports => ports
  | i + 1, seed, ports =>
    let seed := lcgNext seed
    let j := (seed % ((i : Int) + 1 + 1)).toNat
    shuffleLoop i seed (swapPorts ports (i + 1) j)

/-- `customShufflePorts`: the Fisher-Yates shuffle of the ports, in place in the
source; `seed` is the value of `time.Now().UnixNano()`. -/
def customShufflePorts (seed : Int) (ports : List Int) : List Int :=
  if ports.length ≤ 1 then ports else shuffleLoop (ports.length - 1) seed ports

/-- What the network does to one call of `ScanPort`: the connection attempt times
out, fails otherwise, or succeeds; in the last case `GrabBanner` returns a
banner (possibly empty) or an error (`none`). -/
inductive NetOutcome where
  | timeout
  | refused
  | connected (banner : Option GoString)
  deriving DecidableEq, Repr

/-- `ScanPort`: scans a single port and returns the result.  `none` stands for
the panic of `GetBody`. -/
def ScanPort (table : Nat → Nat) (order : List (GoString × GoString)) (host : GoString)
    (port : Int) (net : NetOutcome) : Option ScanResult :=
  let result : ScanResult :=
    { Host := host, Port := port, Status := .StatusClosed, Service := [], Banner := [],
      Body := [] }
  match net with
  | .timeout => some { result with Status := .StatusFiltered }
  | .refused => some { result with Status := .StatusClosed }
  | .connected grabbed =>
    match grabbed with
    | some banner =>
      if banner ≠ [] then
        match GetBody banner with
        | some body =>
          some { result with
            Status := .StatusOpen, Banner := cleanBanner banner,
            Service := IdentifyService table order port banner, Body := body }
        | none => none
      else
        some { result with Status := .StatusOpen, Service := IdentifyService table order port [] }
    | none =>
      some { result with Status := .StatusOpen, Service := IdentifyService table order port [] }

/-- `updateStats`: one counter of the statistics incremented, by the status of
the result; the source does it under the mutex of the scanner. -/
def updateStats (stats : ScanStatistics) (result : ScanResult) : ScanStatistics :=
  match result.Status with
  | .StatusOpen => { stats with OpenPorts := stats.OpenPorts + 1 }
  | .StatusClosed => { stats with ClosedPorts := stats.ClosedPorts + 1 }
  | .StatusFiltered => { stats with FilteredPorts := stats.FilteredPorts + 1 }

/-- Where a worker goroutine of `scanConcurrent` stands: at the head of its loop
`for port := range portsChan`, holding a port it is about to scan, holding a
result before `updateStats`, holding it before the send on `resultsChan`, or
past the loop (its `wg.Done` has run). -/
inductive WorkerState where
  | ranging
  | scanning (port : Int)
  | updating (result : ScanResult)
  | sending (result : ScanResult)
  | done
  deriving DecidableEq, Repr

/-- The state of a run of `scanConcurrent`, all its goroutines started: the
goroutine that fills `portsChan` (`toSend` is what it still has to send), the
workers, the goroutine that closes `resultsChan` once the wait group is at
zero, and the main goroutine that collects `results`.  Both channels are
buffered, with capacity `cap`.  `probed` logs the calls of `ScanPort`. -/
structure RunState where
  host : GoString
  cap : Nat
  toSend : List Int
  portsChan : List Int
  portsClosed : Bool
  workers : List WorkerState
  resultsChan : List ScanResult
  resultsClosed : Bool
  results : List ScanResult
  returned : Bool
  stats : ScanStatistics
  probed : List Int
  crashed : Bool
  deriving DecidableEq, Repr

/-- One atomic step of a run, named after the goroutine that takes it. -/
inductive Label where
  | send
  | closePorts
  | recv (i : Nat)
  | leave (i : Nat)
  | scan (i : Nat) (net : NetOutcome) (order : List (GoString × GoString))
  | update (i : Nat)
  | emit (i : Nat)
  | closeResults
  | collect
  | finish (elapsed : Int)
  deriving DecidableEq, Repr

/-- The effect of one step on the state of the run, `none` when the goroutine
cannot take that step there (it is blocked, or elsewhere in its code).  A send
needs room in the buffer, a receive an element; a `range` over a channel ends
when the channel is closed and empty.  `scan` is the call of `ScanPort`, with
the answer of the network and the order in which this call ranges over the
signature map; when `ScanPort` panics the program is gone (`crashed`), and no
step follows.  The pause `time.Sleep(DelayBetween)` changes nothing and is not
a step. -/
def step (table : Nat → Nat) (l : Label) (st : RunState) : Option RunState :=
  if st.crashed then none
  else
    match l with
    | .send =>
      match st.toSend with
      | p :: rest =>
        if st.portsChan.length < st.cap then
          some { st with toSend := rest, portsChan := st.portsChan ++ [p] }
        else none
      | [] => none
    | .closePorts =>
      if st.toSend = [] ∧ st.portsClosed = false then some { st with portsClosed := true }
      else none
    | .recv i =>
      match st.workers[i]?, st.portsChan with
      | some .ranging, p :: rest =>
        some { st with workers := st.workers.set i (.scanning p), portsChan := rest }
      | _, _ => none
    | .leave i =>
      match st.workers[i]? with
      | some .ranging =>
        if st.portsChan = [] ∧ st.portsClosed = true then
          some { st with workers := st.workers.set i .done }
        else none
      | _ => none
    | .scan i net order =>
      match st.workers[i]? with
      | some (.scanning p) =>
        if order.Perm signatures then
          match ScanPort table order st.host p net with
          | some r =>
            some { st with workers := st.workers.set i (.updating r), probed := st.probed ++ [p] }
          | none => some { st with crashed := true, probed := st.probed ++ [p] }
        else none
      | _ => none
    | .update i =>
      match st.workers[i]? with
      | some (.updating r) =>
        some { st with workers := st.workers.set i (.sending r), stats := updateStats st.stats r }
      | _ => none
    | .emit i =>
      match st.workers[i]? with
      | some (.sending r) =>
        if st.resultsChan.length < st.cap then
          some { st with workers := st.workers.set i .ranging,
                         resultsChan := st.resultsChan ++ [r] }
        else none
      | _ => none
    | .closeResults =>
      if st.workers.all (fun w => decide (w = .done)) = true ∧ st.resultsClosed = false then
        some { st with resultsClosed := true }
      else none
    | .collect =>
      match st.resultsChan with
      | r :: rest =>
        if st.returned = false then
          some { st with results := st.results ++ [r], resultsChan := rest }
        else none
      | [] => none
    | .finish elapsed =>
      if st.returned = false ∧ st.resultsChan = [] ∧ st.resultsClosed = true then
        some { st with returned := true, stats := { st.stats with ScanDuration := elapsed } }
      else none

/-- A run: the steps of a schedule taken one after the other, `none` when one of
them cannot be taken. -/
def run (table : Nat → Nat) : List Label → RunState → Option RunState
  | [], st => some st
  | l :: rest, st =>
    match step table l st with
    | some st => run table rest st
    | none => none

/-- The errors of `Scan`. -/
inductive ScanError where
  | emptyHost
  | emptyPorts
  deriving DecidableEq, Repr

/-- The state in which `scanConcurrent(ports)` starts, the statistics set by
`Scan`: `MaxConcurrency` workers (none when that is negative), channels of
capacity `len(ports)`. -/
def initialState (s : Scanner) (ports : List Int) : RunState :=
  { host := s.config.Host, cap := ports.length, toSend := ports, portsChan := [],
    portsClosed := false, workers := List.replicate s.config.MaxConcurrency.toNat .ranging,
    resultsChan := [], resultsClosed := false, results := [], returned := false,
    stats := { ScanStatistics.zero with TotalPorts := ports.length },
    probed := [], crashed := false }

/-- `Scan` up to the call of `scanConcurrent`: the two validations, and the
shuffle when the order is to be randomized. -/
def scanStart (s : Scanner) (seed : Int) : Except ScanError RunState :=
  if s.config.Host = [] then .error .emptyHost
  else if s.config.Ports.length = 0 then .error .emptyPorts
  else
    let ports := if s.config.RandomizeOrder then customShufflePorts seed s.config.Ports
      else s.config.Ports
    .ok (initialState s ports)

/-- What `Scan` returns: the results, the statistics and the error, and with
them the log of the ports that were probed. -/
structure ScanReturn where
  results : List ScanResult
  stats : ScanStatistics
  err : Option ScanError
  probed : List Int
  deriving DecidableEq, Repr

/-- `Scan`: performs the port scan and returns results.  The run of the
goroutines follows the schedule `sched`; `none` when the schedule is not a
complete run (a step of it cannot be taken, the main goroutine has not
returned at its end, or `ScanPort` panicked). -/
def Scan (table : Nat → Nat) (s : Scanner) (seed : Int) (sched : List Label) :
    Option ScanReturn :=
  match scanStart s seed with
  | .error e => some { results := [], stats := ScanStatistics.zero, err := some e, probed := [] }
  | .ok st0 =>
    match run table sched st0 with
    | some st =>
      if st.returned = true ∧ st.crashed = false then
        some { results := st.results, stats := st.stats, err := none, probed := st.probed }
      else none
    | none => none

/-- How far a state is from the end of the run: every step lowers it. -/
def workerWeight : WorkerState → Nat
  | .ranging => 1
  | .scanning _ => 5
  | .updating _ => 4
  | .sending _ => 3
  | .done => 0

/-- The measure of a state: a bound on the number of steps still possible. -/
def measure (st : RunState) : Nat :=
  if st.crashed then 0
  else
    6 * st.toSend.length + 5 * st.portsChan.length + (st.workers.map workerWeight).sum +
      st.resultsChan.length + (if st.portsClosed then 0 else 1) +
      (if st.resultsClosed then 0 else 1) + (if st.returned then 0 else 1)

/-- The ports a worker holds. -/
def heldPorts : WorkerState → List Int
  | .scanning p => [p]
  | .updating r => [r.Port]
  | .sending r => [r.Port]
  | _ => []

/-- Whether a worker holds a result that the statistics already count. -/
def isSending : WorkerState → Bool
  | .sending _ => true
  | _ => false

/-- A configuration for the worked examples: two ports, two workers. -/
def exampleConfig : ScanConfig :=
  { Host := str "10.1.2.3", Ports := [22, 80], Timeout := 0, MaxConcurrency := 2,
    RandomizeOrder := false, DelayBetween := 0 }

/-- A complete run of the example: both ports are handed out, port 80 is
refused, port 22 answers with a banner, and the results are collected. -/
def exampleSchedule : List Label :=
  [.send, .send, .closePorts, .recv 0, .recv 1, .scan 1 .refused signatures,
   .scan 0 (.connected (some (str "SSH-2.0-OpenSSH"))) signatures, .update 0, .update 1,
   .emit 1, .emit 0, .leave 0, .leave 1, .closeResults, .collect, .collect, .finish 5]

/-- The invariant of a run over the port sequence `ports` with `n` workers:
every port is in exactly one place (still to send, in a channel, with a worker,
or collected), the three counters count the results that passed
`updateStats`, and the channels are closed only when their senders are through. -/
structure RunInv (ports : List Int) (n : Nat) (st : RunState) : Prop where
  ports_perm : (st.toSend ++ st.portsChan ++ (st.workers.map heldPorts).flatten ++
    st.resultsChan.map (fun r => r.Port) ++ st.results.map (fun r => r.Port)).Perm ports
  counted : st.stats.OpenPorts + st.stats.ClosedPorts + st.stats.FilteredPorts =
    ((st.workers.countP isSending + st.resultsChan.length + st.results.length : Nat) : Int)
  total : st.stats.TotalPorts = (ports.length : Int)
  cap_eq : st.cap = ports.length
  workers_length : st.workers.length = n
  closed_sent : st.portsClosed = true → st.toSend = []
  done_closed : (∃ w ∈ st.workers, w = WorkerState.done) →
    st.portsClosed = true ∧ st.portsChan = []
  rclosed_done : st.resultsClosed = true → ∀ w ∈ st.workers, w = WorkerState.done
  returned_closed : st.returned = true → st.resultsClosed = true ∧ st.resultsChan = []

end scanner

namespace scanner

/-- The loop of `customShufflePorts` with the checks of the run time.  The index
is drawn as Go computes it, `j := int(seed) % (i + 1)` with the remainder of the
division that truncates toward zero (`seed` is below `2^31` after the mask, so
the conversion to `int` changes nothing, whatever the width of `int`); `none`
stands for the panic of an index out of range in
`ports[i], ports[j] = ports[j], ports[i]`. -/
def shuffleLoopChecked : Nat → Int → List Int → Option (List Int)
  | 0, _, ports => some ports
  | i + 1, seed, ports =>
    let seed := lcgNext seed
    let j := Int.tmod seed ((i : Int) + 1 + 1)
    if i + 1 < ports.length ∧ 0 ≤ j ∧ j < (ports.length : Int) then
      shuffleLoopChecked i seed (swapPorts ports (i + 1) j.toNat)
    else none

/-- `customShufflePorts` with the checks of the run time. -/
def customShufflePortsChecked (seed : Int) (ports : List Int) : Option (List Int) :=
  if ports.length ≤ 1 then some ports else shuffleLoopChecked (ports.length - 1) seed ports

/-- The pairs `(i, j)` of the positions exchanged by the loop of
`customShufflePorts`, in the order of the iterations, `j` as it is drawn. -/
def shuffleIndices : Nat → Int → List (Nat × Int)
  | 0, _ => []
  | i + 1, seed =>
    let seed := lcgNext seed
    (i + 1, Int.tmod seed ((i : Int) + 1 + 1)) :: shuffleIndices i seed

/-- The positions exchanged by `customShufflePorts` on a slice of `n` ports. -/
def customShuffleIndices (seed : Int) (n : Nat) : List (Nat × Int) :=
  if n ≤ 1 then [] else shuffleIndices (n - 1) seed

/-- What a call finds around it and leaves behind: the readings of the clock, in
the order they are asked for, the number of readings taken so far, and the lines
written to the standard output. -/
structure World where
  clock : Nat → Int
  reads : Nat
  stdout : List GoString

/-- `time.Now().UnixNano()`: the next reading of the clock. -/
def World.UnixNano (w : World) : Int × World :=
  (w.clock w.reads, { w with reads := w.reads + 1 })

/-- `fmt.Println` of one string. -/
def World.Println (w : World) (line : GoString) : World :=
  { w with stdout := w.stdout ++ [line ++ [10]] }

/-- `customShufflePorts` run in a world: it prints its message, returns at once
on a slice of at most one port, and otherwise reads the clock once, for the
seed, and runs the loop. -/
def customShufflePortsIn (w : World) (ports : List Int) : List Int × World :=
  let w := w.Println (str "Shuffling ports using custom algorithm")
  if ports.length ≤ 1 then (ports, w)
  else
    let r := w.UnixNano
    (shuffleLoop (ports.length - 1) r.1 ports, r.2)

/-- A world for the worked examples: the clock reads 7, then advances by 1000 a
reading. -/
def exampleWorld : World :=
  { clock := fun k => 7 + 1000 * (k : Int), reads := 0, stdout := [] }

/-- Another world with the same next reading: the clock has been read three
times, runs at another pace, and a line has been printed. -/
def otherWorld : World :=
  { clock := fun k => if k = 3 then 7 else 31 * (k : Int), reads := 3,
    stdout := [str "scan started"] }

end scanner

namespace Go

/-- The loop of `utf8.ValidString`: every decoding step must yield a rune other
than the `(RuneError, 1)` of an invalid or truncated encoding.  `fuel` bounds the
number of steps and `s.length` always suffices. -/
def ValidStringAux : Nat → GoString → Bool
  | 0, s => s.isEmpty
  | fuel + 1, s =>
    match s with
    | [] => true
    | _ :: _ =>
      let d := DecodeRuneInString s
      if d.1 = RuneError ∧ d.2 = 1 then false else ValidStringAux fuel (s.drop d.2)

/-- `utf8.ValidString`: whether `s` consists entirely of valid UTF-8-encoded runes. -/
def ValidString (s : GoString) : Bool := ValidStringAux s.length s

/-- The ranges of the runes by the width of their encoding, and the pair
`(RuneError, 1)` of a byte that starts no valid encoding. -/
def runeOfWidth (r w : Nat) : Prop :=
  (r = RuneError ∧ w = 1) ∨ (w = 1 ∧ r < 128) ∨ (w = 2 ∧ 128 ≤ r ∧ r < 2048) ∨
  (w = 3 ∧ 2048 ≤ r ∧ r < 65536 ∧ ¬ (55296 ≤ r ∧ r ≤ 57343)) ∨
  (w = 4 ∧ 65536 ≤ r ∧ r ≤ 1114111)

end Go

/-! # Theorems -/
/-! ## Lemmas on the library functions -/

namespace Go

theorem Contains_singleton (b : Nat) (s : GoString) : Contains s [b] = true ↔ b ∈ s := by
  induction s with
  | nil => simp [Contains]
  | cons c s ih =>
    simp only [Contains, HasPrefix, Bool.or_eq_true, ih, List.mem_cons]
    constructor
    · rintro (h | h)
      · left
        simpa [List.isPrefixOf] using h
      · exact Or.inr h
    · rintro (h | h)
      · left
        simp [List.isPrefixOf, h]
      · exact Or.inr h

end Go

namespace network

theorem rangeLoopAux_eq (fuel : Nat) (i stop : Int) (ports : List Int)
    (h : fuel = (stop + 1 - i).toNat) :
    rangeLoopAux fuel i stop ports = ports ++ specAscending i stop := by
  induction fuel generalizing i ports with
  | zero =>
    simp [rangeLoopAux, specAscending, ← h]
  | succ k ih =>
    have hle : i ≤ stop := by omega
    have hk : k = (stop + 1 - (i + 1)).toNat := by omega
    rw [rangeLoopAux, if_pos hle, ih (i + 1) (ports ++ [i]) hk]
    simp only [specAscending, ← h, ← hk, List.append_assoc, List.range_succ_eq_map, List.map_cons,
      List.map_map, List.singleton_append]
    congr 2
    · simp
    · apply List.map_congr_left
      intro a _
      simp only [Function.comp, Nat.succ_eq_add_one]
      push_cast
      ring

/-- The loop over a range appends the ascending list between its bounds. -/
theorem rangeLoop_eq (start stop : Int) (ports : List Int) :
    rangeLoop start stop ports = ports ++ specAscending start stop :=
  rangeLoopAux_eq _ _ _ _ rfl

/-- The fuel of `rangeLoop` is enough: with any larger fuel the loop returns the same. -/
theorem rangeLoopAux_fuel (fuel : Nat) (i stop : Int) (ports : List Int)
    (h : (stop + 1 - i).toNat ≤ fuel) :
    rangeLoopAux fuel i stop ports = rangeLoop i stop ports := by
  induction fuel generalizing i ports with
  | zero =>
    have h0 : (stop + 1 - i).toNat = 0 := by omega
    simp [rangeLoop, h0]
  | succ k ih =>
    by_cases hle : i ≤ stop
    · rw [rangeLoopAux, if_pos hle, ih (i + 1) (ports ++ [i]) (by omega), rangeLoop, rangeLoop]
      have : (stop + 1 - i).toNat = (stop + 1 - (i + 1)).toNat + 1 := by omega
      rw [this, rangeLoopAux, if_pos hle]
    · rw [rangeLoopAux, if_neg hle, rangeLoop]
      have : (stop + 1 - i).toNat = 0 := by omega
      rw [this, rangeLoopAux]

theorem mem_specAscending (a b n : Int) : n ∈ specAscending a b ↔ a ≤ n ∧ n ≤ b := by
  simp only [specAscending, List.mem_map, List.mem_range]
  constructor
  · rintro ⟨k, hk, rfl⟩
    omega
  · intro h
    exact ⟨(n - a).toNat, by omega, by omega⟩

theorem nodup_specAscending (a b : Int) : (specAscending a b).Nodup := by
  unfold specAscending
  apply List.Nodup.map _ (List.nodup_range _)
  intro x y hxy
  simpa using hxy

theorem specPort_bounds {s : GoString} {n : Int} (h : specPort s = some n) :
    1 ≤ n ∧ n ≤ 65535 := by
  unfold specPort at h
  split at h
  · split at h
    · cases h; assumption
    · cases h
  · cases h

/-- One iteration of the parsing loop does what the token's contribution says. -/
theorem parsePart_eq (ports : List Int) (part : GoString) :
    (∀ c, specToken (TrimSpace part) = some c → parsePart ports part = .ok (ports ++ c)) ∧
    (specToken (TrimSpace part) = none → ∃ e, parsePart ports part = .error e) := by
  unfold parsePart specToken
  simp only [Contains_singleton]
  by_cases hd : 45 ∈ TrimSpace part
  · simp only [hd, if_true]
    by_cases hl : (Split (TrimSpace part) 45).length = 2
    · obtain ⟨sa, sb, hs⟩ := List.length_eq_two.mp hl
      simp only [hs, List.length_cons, List.length_nil, ne_eq, not_true_eq_false, if_false,
        List.getD_cons_zero, List.getD_cons_succ, specPort]
      cases ha : Atoi (TrimSpace sa) with
      | none => simp
      | some a =>
        cases hb : Atoi (TrimSpace sb) with
        | none => simp
        | some b =>
          by_cases hr : a < 1 ∨ a > 65535 ∨ b < 1 ∨ b > 65535
          · have : ¬ ((1 ≤ a ∧ a ≤ 65535) ∧ (1 ≤ b ∧ b ≤ 65535)) := by omega
            simp only [hr, if_true]
            by_cases h1 : 1 ≤ a ∧ a ≤ 65535
            · have h2 : ¬ (1 ≤ b ∧ b ≤ 65535) := fun h2 => this ⟨h1, h2⟩
              simp [h1, h2]
            · simp [h1]
          · have h1 : 1 ≤ a ∧ a ≤ 65535 := by omega
            have h2 : 1 ≤ b ∧ b ≤ 65535 := by omega
            simp [hr, h1, h2, rangeLoop_eq]
    · simp only [ne_eq, hl, not_false_eq_true, if_true]
      constructor
      · intro c hc
        split at hc
        · rename_i sa sb hs
          rw [hs] at hl
          simp at hl
        · cases hc
      · intro _
        exact ⟨_, rfl⟩
  · simp only [hd, if_false, specPort]
    cases ha : Atoi (TrimSpace part) with
    | none => simp
    | some a =>
      by_cases hr : a < 1 ∨ a > 65535
      · have : ¬ (1 ≤ a ∧ a ≤ 65535) := by omega
        simp [hr, this]
      · have : 1 ≤ a ∧ a ≤ 65535 := by omega
        simp [hr, this]

end network

namespace network

/-- The loop over the parts returns the slice it was entered with followed by the
contributions of the parts, when every part has one. -/
theorem parseParts_ok (parts : List GoString) (ports : List Int)
    (h : ∀ part ∈ parts, (specToken (TrimSpace part)).isSome = true) :
    parseParts parts ports =
      .ok (ports ++ (parts.map (fun part => (specToken (TrimSpace part)).getD [])).flatten) := by
  induction parts generalizing ports with
  | nil => simp [parseParts]
  | cons part rest ih =>
    obtain ⟨c, hc⟩ := Option.isSome_iff_exists.mp (h part (List.mem_cons_self _ _))
    rw [parseParts, (parsePart_eq ports part).1 c hc]
    simp only
    rw [ih _ (fun p hp => h p (List.mem_cons_of_mem _ hp))]
    simp [hc]

/-- The loop over the parts returns an error as soon as one part has no contribution. -/
theorem parseParts_error (parts : List GoString) (ports : List Int)
    (h : ∃ part ∈ parts, specToken (TrimSpace part) = none) :
    ∃ e, parseParts parts ports = .error e := by
  induction parts generalizing ports with
  | nil => simp at h
  | cons part rest ih =>
    rw [parseParts]
    cases hc : specToken (TrimSpace part) with
    | none =>
      obtain ⟨e, he⟩ := (parsePart_eq ports part).2 hc
      exact ⟨e, by rw [he]⟩
    | some c =>
      rw [(parsePart_eq ports part).1 c hc]
      simp only
      apply ih
      obtain ⟨p, hp, hn⟩ := h
      rcases List.mem_cons.mp hp with rfl | hp
      · rw [hc] at hn; cases hn
      · exact ⟨p, hp, hn⟩

/-- A specifier that is accepted is empty, or all its tokens have a contribution. -/
theorem ParsePortRange_ok_inv {portStr : GoString} {ports : List Int}
    (h : ParsePortRange portStr = .ok ports) :
    (portStr = [] ∧ ports = []) ∨
    (portStr ≠ [] ∧ (∀ t ∈ specTokens portStr, (specToken t).isSome = true) ∧
      ports = ((specTokens portStr).map (fun t => (specToken t).getD [])).flatten) := by
  unfold ParsePortRange at h
  by_cases he : portStr = []
  · left
    rw [if_pos he] at h
    cases h
    exact ⟨he, rfl⟩
  · right
    rw [if_neg he] at h
    have hall : ∀ part ∈ Split portStr 44, (specToken (TrimSpace part)).isSome = true := by
      intro part hp
      cases hc : specToken (TrimSpace part) with
      | some c => rfl
      | none =>
        obtain ⟨e, he⟩ := parseParts_error (Split portStr 44) [] ⟨part, hp, hc⟩
        rw [he] at h
        cases h
    refine ⟨he, ?_, ?_⟩
    · intro t ht
      obtain ⟨part, hp, rfl⟩ := List.mem_map.mp ht
      exact hall part hp
    · rw [parseParts_ok _ _ hall] at h
      cases h
      simp only [specTokens, List.map_map, List.nil_append]
      rfl

theorem specToken_bounds {t : GoString} {c : List Int} (h : specToken t = some c) :
    ∀ n ∈ c, 1 ≤ n ∧ n ≤ 65535 := by
  unfold specToken at h
  split at h
  · split at h
    · split at h
      · rename_i a b ha hb
        cases h
        intro n hn
        have h1 := specPort_bounds ha
        have h2 := specPort_bounds hb
        rw [mem_specAscending] at hn
        omega
      · cases h
    · cases h
  · split at h
    · rename_i n hn
      cases h
      intro m hm
      simp only [List.mem_singleton] at hm
      subst hm
      exact specPort_bounds hn
    · cases h

theorem specToken_nodup {t : GoString} {c : List Int} (h : specToken t = some c) : c.Nodup := by
  unfold specToken at h
  split at h
  · split at h
    · split at h
      · cases h
        exact nodup_specAscending _ _
      · cases h
    · cases h
  · split at h
    · cases h
      exact List.nodup_singleton _
    · cases h

theorem count_contributions (n : Int) (ts : List GoString) :
    (ts.map (fun t => (specToken t).getD [])).flatten.count n = ts.countP (specCovers n) := by
  induction ts with
  | nil => simp
  | cons t rest ih =>
    simp only [List.map_cons, List.flatten_cons, List.count_append, ih, List.countP_cons]
    rw [Nat.add_comm]
    congr 1
    unfold specCovers
    cases hc : specToken t with
    | none => simp
    | some c =>
      have hnd := specToken_nodup hc
      by_cases hn : n ∈ c
      · simp [hn, List.count_eq_one_of_mem hnd hn]
      · simp [hn, List.count_eq_zero_of_not_mem hn]

end network

namespace network

/-- The three rejected specifiers the specification names, and two accepted ones. -/
theorem ParsePortRange_examples :
    ParsePortRange (str "0") = .error .portBounds ∧
    ParsePortRange (str "65536") = .error .portBounds ∧
    ParsePortRange (str "abc") = .error (.invalidPort (str "abc")) ∧
    ParsePortRange (str "22, 80-82 ,443") = .ok [22, 80, 81, 82, 443] ∧
    ParsePortRange (str "10-5") = .ok [] := by
  decide

/-- The empty specifier is answered before any splitting, with no error and no
port: it is the signal that the caller supplies its own ports, and holds no
token. -/
theorem ParsePortRange_empty_specifier :
    ParsePortRange (str "") = .ok [] ∧ specSpecifierTokens (str "") = [] := by
  decide

/-- C1: for every port specifier in which some token (a single value, or a
`start-end` token through one of its endpoints) is not a decimal integer or
parses to an integer outside 1..65535, `ParsePortRange` returns an error (and
with it a nil list); and whenever `ParsePortRange` succeeds, every returned port
`n` satisfies `1 ≤ n ≤ 65535`. -/
theorem ParsePortRange_rejects_invalid_token (portStr : GoString) :
    ((∃ t ∈ specSpecifierTokens portStr, specToken t = none) →
      ∃ e, ParsePortRange portStr = .error e) ∧
    (∀ ports, ParsePortRange portStr = .ok ports → ∀ n ∈ ports, 1 ≤ n ∧ n ≤ 65535) := by
  constructor
  · intro ⟨t, ht, hnone⟩
    unfold specSpecifierTokens at ht
    split at ht
    · simp at ht
    · rename_i hne
      obtain ⟨part, hp, rfl⟩ := List.mem_map.mp ht
      rw [ParsePortRange, if_neg hne]
      exact parseParts_error _ _ ⟨part, hp, hnone⟩
  · intro ports hok n hn
    rcases ParsePortRange_ok_inv hok with ⟨_, rfl⟩ | ⟨_, hall, rfl⟩
    · simp at hn
    · obtain ⟨c, hc, hnc⟩ := List.mem_flatten.mp hn
      obtain ⟨t, ht, rfl⟩ := List.mem_map.mp hc
      obtain ⟨c, hc⟩ := Option.isSome_iff_exists.mp (hall t ht)
      rw [hc] at hnc
      exact specToken_bounds hc n hnc

/-- C1 at the specifiers `22,65536-7`, whose second token has an endpoint out of
range, and `22,80-82`, which is accepted. -/
theorem ParsePortRange_rejects_invalid_token_witness :
    (∃ t ∈ specSpecifierTokens (str "22,65536-7"), specToken t = none) ∧
    (∃ e, ParsePortRange (str "22,65536-7") = .error e) ∧
    ParsePortRange (str "22,80-82") = .ok [22, 80, 81, 82] ∧
    (∀ n ∈ [22, 80, 81, 82], (1 : Int) ≤ n ∧ n ≤ 65535) :=
  ⟨by decide,
   (ParsePortRange_rejects_invalid_token (str "22,65536-7")).1 (by decide),
   by decide,
   (ParsePortRange_rejects_invalid_token (str "22,80-82")).2 [22, 80, 81, 82] (by decide)⟩

/-- C2: for every specifier whose comma-separated tokens are each a valid single
port or a range with both endpoints in 1..65535 (such a specifier is not empty),
`ParsePortRange` succeeds and returns exactly the concatenation, in token order,
of the tokens' contributions: `[n]` for a single value, the inclusive ascending
list for a range, empty when the range descends.  The length is the sum of the
lengths of the contributions, and nothing is removed. -/
theorem ParsePortRange_concat (portStr : GoString)
    (h : ∀ t ∈ specTokens portStr, (specToken t).isSome = true) :
    ∃ ports, ParsePortRange portStr = .ok ports ∧
      ports = ((specTokens portStr).map (fun t => (specToken t).getD [])).flatten ∧
      ports.length = ((specTokens portStr).map (fun t => ((specToken t).getD []).length)).sum := by
  have hne : portStr ≠ [] := by
    rintro rfl
    have := h [] (by decide)
    revert this
    decide
  refine ⟨_, ?_, rfl, ?_⟩
  · rw [ParsePortRange, if_neg hne, parseParts_ok]
    · simp only [specTokens, List.map_map, List.nil_append]
      rfl
    · intro part hp
      exact h _ (List.mem_map_of_mem _ hp)
  · rw [List.length_flatten, List.map_map]
    rfl

/-- C2 at the specifier `80,3-5,80,10-5,4`: repeated values are kept and the
descending range adds nothing. -/
theorem ParsePortRange_concat_witness :
    (∀ t ∈ specTokens (str "80,3-5,80,10-5,4"), (specToken t).isSome = true) ∧
    ∃ ports, ParsePortRange (str "80,3-5,80,10-5,4") = .ok ports ∧
      ports = ((specTokens (str "80,3-5,80,10-5,4")).map (fun t => (specToken t).getD [])).flatten ∧
      ports.length =
        ((specTokens (str "80,3-5,80,10-5,4")).map (fun t => ((specToken t).getD []).length)).sum :=
  ⟨by decide, ParsePortRange_concat (str "80,3-5,80,10-5,4") (by decide)⟩

/-- C10, the claim as stated fails: `80,80` is accepted and port 80 is returned twice. -/
theorem ParsePortRange_keeps_duplicates :
    ∃ ports, ParsePortRange (str "80,80") = .ok ports ∧ ¬ ports.Nodup :=
  ⟨[80, 80], by decide, by decide⟩

/-- C10 (amended): for every specifier that `ParsePortRange` accepts, a port
number occurs in the returned sequence once for each token that covers it (a
single value equal to it, or a range that contains it); so the sequence is free
of repetitions exactly when no port is covered by two tokens. -/
theorem ParsePortRange_count (portStr : GoString) (ports : List Int)
    (h : ParsePortRange portStr = .ok ports) :
    (∀ n, ports.count n = (specTokens portStr).countP (specCovers n)) ∧
    (ports.Nodup ↔ ∀ n, (specTokens portStr).countP (specCovers n) ≤ 1) := by
  have hcount : ∀ n, ports.count n = (specTokens portStr).countP (specCovers n) := by
    intro n
    rcases ParsePortRange_ok_inv h with ⟨rfl, rfl⟩ | ⟨_, _, rfl⟩
    · have h0 : specToken (TrimSpace []) = none := by decide
      simp [specTokens, Split, specCovers, h0]
    · exact count_contributions n _
  refine ⟨hcount, ?_⟩
  rw [List.nodup_iff_count_le_one]
  constructor
  · intro hc n
    rw [← hcount]
    exact hc n
  · intro hc n
    rw [hcount]
    exact hc n

/-- C10 (amended) at the specifier `80-82,81`: port 81 is covered twice and returned twice. -/
theorem ParsePortRange_count_witness :
    ParsePortRange (str "80-82,81") = .ok [80, 81, 82, 81] ∧
    (∀ n, [80, 81, 82, 81].count n = (specTokens (str "80-82,81")).countP (specCovers n)) ∧
    (([80, 81, 82, 81] : List Int).Nodup ↔ ∀ n, (specTokens (str "80-82,81")).countP (specCovers n) ≤ 1) :=
  ⟨by decide, ParsePortRange_count (str "80-82,81") [80, 81, 82, 81] (by decide)⟩

end network

/-! ## Addresses as numbers -/

namespace Go

theorem length_beBytes (n v : Nat) : (beBytes n v).length = n := by
  induction n generalizing v with
  | zero => rfl
  | succ n ih => simp [beBytes, ih]

theorem length_cidrMaskLoop (l n : Nat) : (cidrMaskLoop l n).length = l := by
  induction l generalizing n with
  | zero => rfl
  | succ l ih =>
    rw [cidrMaskLoop]
    split <;> simp [ih]

/-- The bytes of a number, the most significant first, start with its top byte. -/
theorem beBytes_succ_cons (n v : Nat) :
    beBytes (n + 1) v = (v / 256 ^ n % 256) :: beBytes n v := by
  induction n generalizing v with
  | zero => simp [beBytes]
  | succ n ih =>
    show beBytes (n + 1) (v / 256) ++ [v % 256] = _
    rw [ih, Nat.div_div_eq_div_mul, ← Nat.pow_succ']
    rfl

/-- Only the `n` low bytes of a number matter to `beBytes n`. -/
theorem beBytes_eq_iff (n x y : Nat) :
    beBytes n x = beBytes n y ↔ x % 256 ^ n = y % 256 ^ n := by
  induction n generalizing x y with
  | zero => simp [beBytes, Nat.mod_one]
  | succ n ih =>
    rw [beBytes, beBytes]
    constructor
    · intro h
      have h1 := List.append_inj h (by simp [length_beBytes])
      have h2 := (ih _ _).mp h1.1
      have h3 : x % 256 = y % 256 := by simpa using h1.2
      rw [Nat.pow_succ', Nat.mod_mul, Nat.mod_mul, h2, h3]
    · intro h
      rw [Nat.pow_succ', Nat.mod_mul, Nat.mod_mul] at h
      have hx : x % 256 < 256 := Nat.mod_lt _ (by norm_num)
      have hy : y % 256 < 256 := Nat.mod_lt _ (by norm_num)
      have h3 : x % 256 = y % 256 := by omega
      have h2 : x / 256 % 256 ^ n = y / 256 % 256 ^ n := by omega
      rw [(ih _ _).mpr h2, h3]

theorem beBytes_mod (n x : Nat) : beBytes n (x % 256 ^ n) = beBytes n x :=
  (beBytes_eq_iff n _ _).mpr (Nat.mod_mod _ _)

set_option maxRecDepth 100000 in
/-- A byte and-ed with the mask byte of `p` ones keeps its `p` high bits. -/
theorem land_mask_byte : ∀ p < 8, ∀ a < 256,
    a &&& (255 - 255 >>> p) = a / 2 ^ (8 - p) * 2 ^ (8 - p) := by
  decide

set_option maxRecDepth 100000 in
theorem land_full_byte : ∀ a < 256, a &&& 255 = a := by
  decide

/-- Keeping the high bits of a number whose top byte is kept whole. -/
theorem keep_high_ge (hi lo A k : Nat) (hk : 2 ^ k ∣ A) :
    (hi * A + lo) / 2 ^ k * 2 ^ k = hi * A + lo / 2 ^ k * 2 ^ k := by
  obtain ⟨B, rfl⟩ := hk
  have hpos : 0 < 2 ^ k := Nat.pow_pos (by norm_num)
  have : hi * (2 ^ k * B) + lo = 2 ^ k * (hi * B) + lo := by ring
  rw [this, Nat.mul_add_div hpos, Nat.add_mul]
  ring

/-- Keeping the high bits of a number when the cut falls inside its top byte. -/
theorem keep_high_lt (hi lo A j : Nat) (hlo : lo < A) :
    (hi * A + lo) / (A * 2 ^ j) * (A * 2 ^ j) = hi / 2 ^ j * 2 ^ j * A := by
  have hA : 0 < A := by omega
  have h1 : (hi * A + lo) / A = hi := by
    rw [Nat.mul_comm, Nat.mul_add_div hA, Nat.div_eq_of_lt hlo, Nat.add_zero]
  rw [← Nat.div_div_eq_div_mul, h1]
  ring

theorem div_mod_of_lt (hi A z : Nat) (hz : z < A) :
    (hi * A + z) / A = hi ∧ (hi * A + z) % A = z := by
  have hA : 0 < A := by omega
  constructor
  · rw [Nat.mul_comm, Nat.mul_add_div hA, Nat.div_eq_of_lt hz, Nat.add_zero]
  · rw [Nat.mul_comm, Nat.mul_add_mod, Nat.mod_eq_of_lt hz]

/-- Masking the bytes of a number with a CIDR mask keeps its high bits. -/
theorem mask_beBytes (l x p : Nat) (hp : p ≤ 8 * l) :
    List.zipWith (· &&& ·) (beBytes l x) (cidrMaskLoop l p) =
      beBytes l (x % 256 ^ l / 2 ^ (8 * l - p) * 2 ^ (8 * l - p)) := by
  induction l generalizing p with
  | zero => simp [beBytes, cidrMaskLoop]
  | succ l ih =>
    have hA : 0 < 256 ^ l := Nat.pow_pos (by norm_num)
    have hA2 : (256 : Nat) ^ l = 2 ^ (8 * l) := by
      rw [show (256 : Nat) = 2 ^ 8 by norm_num, ← Nat.pow_mul]
    have hX : x % 256 ^ (l + 1) = x / 256 ^ l % 256 * 256 ^ l + x % 256 ^ l := by
      rw [Nat.pow_succ, Nat.mod_mul]
      ring
    have hhi : x / 256 ^ l % 256 < 256 := Nat.mod_lt _ (by norm_num)
    have hlo : x % 256 ^ l < 256 ^ l := Nat.mod_lt _ hA
    rw [beBytes_succ_cons, beBytes_succ_cons, cidrMaskLoop]
    by_cases h8 : 8 ≤ p
    · rw [if_pos h8, List.zipWith_cons_cons, ih (p - 8) (by omega), land_full_byte _ hhi]
      have hk : 8 * (l + 1) - p = 8 * l - (p - 8) := by omega
      have hdvd : 2 ^ (8 * l - (p - 8)) ∣ 256 ^ l := by
        rw [hA2]
        exact Nat.pow_dvd_pow 2 (by omega)
      rw [hk, hX, keep_high_ge _ _ _ _ hdvd]
      have hle : x % 256 ^ l / 2 ^ (8 * l - (p - 8)) * 2 ^ (8 * l - (p - 8)) ≤ x % 256 ^ l :=
        Nat.div_mul_le_self _ _
      have hz := div_mod_of_lt (x / 256 ^ l % 256) (256 ^ l) _ (Nat.lt_of_le_of_lt hle hlo)
      congr 1
      · rw [hz.1, Nat.mod_mod]
      · apply (beBytes_eq_iff _ _ _).mpr
        rw [hz.2, Nat.mod_eq_of_lt (Nat.lt_of_le_of_lt hle hlo)]
    · rw [if_neg h8, List.zipWith_cons_cons, ih 0 (by omega),
        land_mask_byte p (by omega) _ hhi]
      have hk : (2 : Nat) ^ (8 * (l + 1) - p) = 256 ^ l * 2 ^ (8 - p) := by
        rw [hA2, ← Nat.pow_add]
        congr 1
        omega
      rw [hk, hX, keep_high_lt _ _ _ _ hlo, Nat.sub_zero, ← hA2, Nat.div_eq_of_lt hlo,
        Nat.zero_mul]
      have hle : x / 256 ^ l % 256 / 2 ^ (8 - p) * 2 ^ (8 - p) ≤ x / 256 ^ l % 256 :=
        Nat.div_mul_le_self _ _
      congr 1
      · rw [Nat.mul_div_cancel _ hA, Nat.mod_eq_of_lt (Nat.lt_of_le_of_lt hle hhi)]
      · apply (beBytes_eq_iff _ _ _).mpr
        rw [Nat.mul_mod_left, Nat.zero_mod]

end Go

namespace network

theorem incFrom_reverse_beBytes (l x : Nat) :
    incFrom (beBytes l x).reverse = (beBytes l (x + 1)).reverse := by
  induction l generalizing x with
  | zero => rfl
  | succ l ih =>
    simp only [beBytes, List.reverse_append, List.reverse_cons, List.reverse_nil, List.nil_append,
      List.singleton_append, incFrom]
    by_cases h : 0 < (x % 256 + 1) % 256
    · rw [if_pos h]
      have h1 : (x + 1) / 256 = x / 256 := by omega
      have h2 : (x % 256 + 1) % 256 = (x + 1) % 256 := by omega
      rw [h1, h2]
    · rw [if_neg h, ih]
      have h1 : (x + 1) / 256 = x / 256 + 1 := by omega
      have h2 : (x % 256 + 1) % 256 = (x + 1) % 256 := by omega
      rw [h1, h2]

/-- Incrementing the bytes of a number gives the bytes of its successor (which
wrap to zero after the last address). -/
theorem inc_beBytes (l x : Nat) : inc (beBytes l x) = beBytes l (x + 1) := by
  rw [inc, incFrom_reverse_beBytes, List.reverse_reverse]

/-- An IPv4 network contains exactly the addresses that share its high bits. -/
theorem Contains_v4 (p x base : Nat) (hp : p ≤ 32) :
    ({ IP := beBytes 4 base, Mask := cidrMaskLoop 4 p } : IPNet).Contains (beBytes 4 x) =
      decide (base % 2 ^ 32 / 2 ^ (32 - p) * 2 ^ (32 - p) =
        x % 2 ^ 32 / 2 ^ (32 - p) * 2 ^ (32 - p)) := by
  have hb : ∀ y : Nat, y % 2 ^ 32 / 2 ^ (32 - p) * 2 ^ (32 - p) < 2 ^ 32 := fun y =>
    Nat.lt_of_le_of_lt (Nat.div_mul_le_self _ _) (Nat.mod_lt _ (by norm_num))
  simp only [IPNet.Contains, networkNumberAndMask, IP.To4, length_beBytes, length_cidrMaskLoop,
    if_true, ne_eq, not_true_eq_false, if_false]
  rw [mask_beBytes 4 base p (by omega), mask_beBytes 4 x p (by omega)]
  simp only [beBytes_eq_iff, show (256 : Nat) ^ 4 = 2 ^ 32 by norm_num,
    show 8 * 4 = 32 by norm_num, Nat.mod_eq_of_lt (hb _)]

/-- The address that `parseCIDR` starts its loop with: the network number. -/
theorem Mask_v4 (v p : Nat) :
    IP.Mask (Addr.v4 v).As16 (cidrMaskLoop 4 p) =
      List.zipWith (· &&& ·) (beBytes 4 v) (cidrMaskLoop 4 p) := by
  have hl : (v4InV6 ++ beBytes 4 v).length = 16 := by simp [v4InV6, length_beBytes]
  have ht : (v4InV6 ++ beBytes 4 v).take 12 = v4InV6 := by
    rw [List.take_append_of_le_length (by simp [v4InV6])]
    rfl
  have hd : (v4InV6 ++ beBytes 4 v).drop 12 = beBytes 4 v := by
    rw [List.drop_append_of_le_length (by simp [v4InV6])]
    rfl
  simp [IP.Mask, Addr.As16, length_cidrMaskLoop, hl, ht, hd, length_beBytes]

/-- The loop of `parseCIDR` over a network of `N` addresses, entered at the
`j`-th of them with `r` still to come: it appends those `r` and ends. -/
theorem hostLoop_v4 (lib : NetLib) (p q : Nat) (hp1 : 1 ≤ p) (hp : p ≤ 32) (hq : q < 2 ^ p)
    (r j fuel : Nat) (hosts : List GoString) (hj : j + r = 2 ^ (32 - p)) (hf : r < fuel) :
    hostLoop lib { IP := beBytes 4 (q * 2 ^ (32 - p)), Mask := cidrMaskLoop 4 p } fuel
        (beBytes 4 (q * 2 ^ (32 - p) + j)) hosts =
      some (hosts ++ (List.range r).map
        (fun i => lib.String (beBytes 4 (q * 2 ^ (32 - p) + j + i)))) := by
  have hN : 0 < 2 ^ (32 - p) := Nat.pow_pos (by norm_num)
  have h32 : (2 : Nat) ^ 32 = 2 ^ p * 2 ^ (32 - p) := by
    rw [← Nat.pow_add]
    congr 1
    omega
  have hbase : q * 2 ^ (32 - p) + 2 ^ (32 - p) ≤ 2 ^ 32 := by
    rw [h32]
    calc q * 2 ^ (32 - p) + 2 ^ (32 - p) = (q + 1) * 2 ^ (32 - p) := by ring
      _ ≤ 2 ^ p * 2 ^ (32 - p) := Nat.mul_le_mul_right _ hq
  have hself : (q * 2 ^ (32 - p)) % 2 ^ 32 / 2 ^ (32 - p) * 2 ^ (32 - p) = q * 2 ^ (32 - p) := by
    rw [Nat.mod_eq_of_lt (by omega), Nat.mul_div_cancel _ hN]
  induction r generalizing j fuel hosts with
  | zero =>
    obtain ⟨f, rfl⟩ : ∃ f, fuel = f + 1 := ⟨fuel - 1, by omega⟩
    have hjN : j = 2 ^ (32 - p) := by omega
    subst hjN
    rw [hostLoop, Contains_v4 _ _ _ hp, hself]
    have hne : ¬ q * 2 ^ (32 - p) =
        (q * 2 ^ (32 - p) + 2 ^ (32 - p)) % 2 ^ 32 / 2 ^ (32 - p) * 2 ^ (32 - p) := by
      rcases Nat.lt_or_ge (q * 2 ^ (32 - p) + 2 ^ (32 - p)) (2 ^ 32) with hlt | hge
      · rw [Nat.mod_eq_of_lt hlt]
        have : q * 2 ^ (32 - p) + 2 ^ (32 - p) = (q + 1) * 2 ^ (32 - p) := by ring
        rw [this, Nat.mul_div_cancel _ hN]
        intro h
        have := Nat.eq_of_mul_eq_mul_right hN h
        omega
      · have heq : q * 2 ^ (32 - p) + 2 ^ (32 - p) = 2 ^ 32 := by omega
        rw [heq, Nat.mod_self, Nat.zero_div, Nat.zero_mul]
        have h2p : 2 ≤ 2 ^ p := by
          calc 2 = 2 ^ 1 := by norm_num
            _ ≤ 2 ^ p := Nat.pow_le_pow_right (by norm_num) hp1
        have hq1 : 1 ≤ q := by
          by_contra hq0
          have hq0 : q = 0 := by omega
          subst hq0
          have : 2 * 2 ^ (32 - p) ≤ 2 ^ p * 2 ^ (32 - p) := Nat.mul_le_mul_right _ h2p
          omega
        have : 1 * 2 ^ (32 - p) ≤ q * 2 ^ (32 - p) := Nat.mul_le_mul_right _ hq1
        omega
    rw [decide_eq_false hne]
    simp
  | succ r ih =>
    obtain ⟨f, rfl⟩ : ∃ f, fuel = f + 1 := ⟨fuel - 1, by omega⟩
    have hjN : j < 2 ^ (32 - p) := by omega
    rw [hostLoop, Contains_v4 _ _ _ hp, hself]
    have heq : q * 2 ^ (32 - p) =
        (q * 2 ^ (32 - p) + j) % 2 ^ 32 / 2 ^ (32 - p) * 2 ^ (32 - p) := by
      rw [Nat.mod_eq_of_lt (by omega), Nat.mul_comm q, Nat.mul_add_div hN,
        Nat.div_eq_of_lt hjN, Nat.add_zero, Nat.mul_comm]
    rw [decide_eq_true heq, if_pos rfl, inc_beBytes, Nat.add_assoc,
      ih (j + 1) f _ (by omega) (by omega)]
    simp only [List.append_assoc, List.singleton_append, List.range_succ_eq_map, List.map_cons,
      List.map_map, Nat.add_zero]
    refine congrArg some (congrArg (hosts ++ ·) (congrArg _ ?_))
    apply List.map_congr_left
    intro i _
    simp only [Function.comp, Nat.succ_eq_add_one]
    congr 2
    omega

/-- A network of prefix length zero never lets the loop of `parseCIDR` end:
every address belongs to it, the one the increment wraps to included. -/
theorem hostLoop_v4_zero (lib : NetLib) (base : Nat) (fuel x : Nat) (hosts : List GoString) :
    hostLoop lib { IP := beBytes 4 base, Mask := cidrMaskLoop 4 0 } fuel (beBytes 4 x) hosts =
      none := by
  induction fuel generalizing x hosts with
  | zero => rfl
  | succ f ih =>
    rw [hostLoop, Contains_v4 _ _ _ (by omega)]
    have h : ∀ y : Nat, y % 2 ^ 32 / 2 ^ (32 - 0) * 2 ^ (32 - 0) = 0 := by
      intro y
      rw [Nat.sub_zero, Nat.div_eq_of_lt (Nat.mod_lt _ (by norm_num)), Nat.zero_mul]
    rw [h, h, decide_eq_true rfl, if_pos rfl, inc_beBytes]
    exact ih _ _

theorem mem_of_IndexByte {s : GoString} {c i : Nat} (h : IndexByte s c = some i) : c ∈ s := by
  induction s generalizing i with
  | nil => cases h
  | cons b rest ih =>
    rw [IndexByte] at h
    by_cases hb : b = c
    · simp [hb]
    · rw [if_neg hb] at h
      cases hr : IndexByte rest c with
      | none => rw [hr] at h; cases h
      | some k => exact List.mem_cons_of_mem _ (ih hr)

/-- What `ParseHosts` computes on a text that `net.ParseCIDR` reads as the IPv4
address `v` with prefix length `p`. -/
theorem ParseHosts_v4_eq (lib : NetLib) (fuel : Nat) (hostStr : GoString) (i v p : Nat)
    (hslash : IndexByte hostStr 47 = some i)
    (haddr : lib.ParseAddr (hostStr.take i) = some (.v4 v))
    (hlen : dtoi (hostStr.drop (i + 1)) = some p) (hp : p ≤ 32) :
    ParseHosts lib fuel hostStr =
      match hostLoop lib
          (IPNet.mk (beBytes 4 (v % 2 ^ 32 / 2 ^ (32 - p) * 2 ^ (32 - p))) (cidrMaskLoop 4 p)) fuel
          (beBytes 4 (v % 2 ^ 32 / 2 ^ (32 - p) * 2 ^ (32 - p))) [] with
      | none => none
      | some hosts =>
        if 2 < hosts.length then some (.ok ((hosts.take (hosts.length - 1)).drop 1))
        else some (.ok hosts) := by
  have hc : Contains hostStr [47] = true := (Contains_singleton _ _).mpr (mem_of_IndexByte hslash)
  have hm : CIDRMask p 32 = cidrMaskLoop 4 p := by
    simp [CIDRMask, Nat.not_lt.mpr hp]
  have hmask : IP.Mask (Addr.v4 v).As16 (cidrMaskLoop 4 p) =
      beBytes 4 (v % 2 ^ 32 / 2 ^ (32 - p) * 2 ^ (32 - p)) := by
    rw [Mask_v4, mask_beBytes 4 v p (by omega)]
    norm_num
  simp only [ParseHosts, hc, if_true, parseCIDR, ParseCIDR, hslash, haddr, hlen, Addr.BitLen,
    Nat.not_lt.mpr hp, if_false, hm, hmask]

end network

namespace network

theorem trim_map_range {α : Type} (f : Nat → α) (M : Nat) :
    (((List.range (M + 2)).map f).take (((List.range (M + 2)).map f).length - 1)).drop 1 =
      (List.range M).map (fun k => f (k + 1)) := by
  rw [List.length_map, List.length_range, ← List.map_take, List.take_range,
    show min (M + 2 - 1) (M + 2) = M + 1 by omega, ← List.map_drop, List.range_succ_eq_map,
    List.drop_one, List.tail_cons, List.map_map]
  rfl

/-- C3: on `0.0.0.0/0` `ParseHosts` does not terminate: whatever the number of
tests of the loop condition it is given, the loop of `parseCIDR` is still
running.  Every address belongs to the network of prefix length zero, and `inc`
wraps `255.255.255.255` to `0.0.0.0`, so the condition `ipnet.Contains(ip)`
never fails.  The same holds from any other base address, as on `10.1.2.3/0`. -/
theorem ParseHosts_prefix_zero :
    (¬ ∃ fuel r, ParseHosts exampleLib fuel (str "0.0.0.0/0") = some r) ∧
    (¬ ∃ fuel r, ParseHosts exampleLib fuel (str "10.1.2.3/0") = some r) ∧
    inc [255, 255, 255, 255] = [0, 0, 0, 0] ∧
    (match ParseCIDR exampleLib.ParseAddr (str "0.0.0.0/0") with
      | some (_, ipnet) => ipnet.Contains [255, 255, 255, 255] && ipnet.Contains [0, 0, 0, 0]
      | none => false) = true := by
  refine ⟨?_, ?_, by decide, by decide⟩
  · rintro ⟨fuel, r, h⟩
    rw [ParseHosts_v4_eq exampleLib fuel (str "0.0.0.0/0") 7 0 0 (by decide) (by decide)
      (by decide) (by omega), hostLoop_v4_zero] at h
    cases h
  · rintro ⟨fuel, r, h⟩
    rw [ParseHosts_v4_eq exampleLib fuel (str "10.1.2.3/0") 8 167838211 0 (by decide)
      (by decide) (by decide) (by omega), hostLoop_v4_zero] at h
    cases h

/-- An IPv6 network goes through the same loop and the same trimming: on
`2001:db8::/126` four addresses are enumerated and the first and the last are
removed. -/
theorem ParseHosts_ipv6_example :
    (match ParseCIDR exampleLib.ParseAddr (str "2001:db8::/126") with
      | some (ip, ipnet) => (hostLoop exampleLib ipnet 5 (ip.Mask ipnet.Mask) []).map List.length
      | none => none) = some 4 ∧
    (ParseHosts exampleLib 5 (str "2001:db8::/126")).map (fun r => r.map List.length) =
      some (.ok 2) := by
  exact ⟨by decide, by decide⟩

/-- The prefix lengths on which the loop ends: for every valid IPv4 CIDR input
with prefix length `p`, `1 ≤ p ≤ 32`, `ParseHosts` terminates (every fuel above `2^(32-p)` gives the
same result) and returns the addresses of the network in ascending order, with
the first (network) and the last (broadcast) address removed when more than two
were enumerated; the host count is `2^(32-p) - 2` for `p ≤ 30`, and the
untrimmed count (2 for /31, 1 for /32) otherwise.  Here `i` is the position of
the slash, `v` the address in front of it as a number, and the network number is
`v` with its `32 - p` low bits cleared. -/
theorem ParseHosts_ipv4 (lib : NetLib) (hostStr : GoString) (i v p : Nat)
    (hslash : IndexByte hostStr 47 = some i)
    (haddr : lib.ParseAddr (hostStr.take i) = some (.v4 v))
    (hlen : dtoi (hostStr.drop (i + 1)) = some p) (hp1 : 1 ≤ p) (hp : p ≤ 32) :
    ∃ hosts,
      (∀ fuel, 2 ^ (32 - p) < fuel → ParseHosts lib fuel hostStr = some (.ok hosts)) ∧
      hosts =
        (if p ≤ 30 then
          (List.range (2 ^ (32 - p) - 2)).map (fun k =>
            lib.String (beBytes 4 (v % 2 ^ 32 / 2 ^ (32 - p) * 2 ^ (32 - p) + 1 + k)))
        else
          (List.range (2 ^ (32 - p))).map (fun k =>
            lib.String (beBytes 4 (v % 2 ^ 32 / 2 ^ (32 - p) * 2 ^ (32 - p) + k)))) ∧
      hosts.length = (if p ≤ 30 then 2 ^ (32 - p) - 2 else 2 ^ (32 - p)) := by
  have hN : 0 < 2 ^ (32 - p) := Nat.pow_pos (by norm_num)
  have h32 : (2 : Nat) ^ 32 = 2 ^ p * 2 ^ (32 - p) := by
    rw [← Nat.pow_add]
    congr 1
    omega
  have hq : v % 2 ^ 32 / 2 ^ (32 - p) < 2 ^ p := by
    rw [Nat.div_lt_iff_lt_mul hN, ← h32]
    exact Nat.mod_lt _ (by norm_num)
  refine ⟨_, ?_, rfl, ?_⟩
  · intro fuel hfuel
    rw [ParseHosts_v4_eq lib fuel hostStr i v p hslash haddr hlen hp]
    have hloop := hostLoop_v4 lib p _ hp1 hp hq (2 ^ (32 - p)) 0 fuel [] (by omega) hfuel
    rw [Nat.add_zero] at hloop
    rw [hloop]
    simp only [List.nil_append]
    by_cases h30 : p ≤ 30
    · have h4 : 2 ^ 2 ≤ 2 ^ (32 - p) := Nat.pow_le_pow_right (by norm_num) (by omega)
      obtain ⟨M, hM⟩ : ∃ M, 2 ^ (32 - p) = M + 2 := ⟨2 ^ (32 - p) - 2, by omega⟩
      rw [if_pos h30, hM, if_pos (by simp; omega), trim_map_range]
      simp only [Nat.add_sub_cancel]
      refine congrArg some (congrArg Except.ok ?_)
      apply List.map_congr_left
      intro k _
      congr 2
      omega
    · have h2 : 2 ^ (32 - p) ≤ 2 := by
        have : 32 - p ≤ 1 := by omega
        calc 2 ^ (32 - p) ≤ 2 ^ 1 := Nat.pow_le_pow_right (by norm_num) this
          _ = 2 := by norm_num
      rw [if_neg h30, if_neg (by simp; omega)]
  · by_cases h30 : p ≤ 30
    · simp [h30]
    · simp [h30]

/-- The hosts of `10.1.2.3/29`: the six addresses `10.1.2.1` to `10.1.2.6`. -/
theorem ParseHosts_ipv4_witness :
    ∃ hosts,
      (∀ fuel, 2 ^ (32 - 29) < fuel →
        ParseHosts exampleLib fuel (str "10.1.2.3/29") = some (.ok hosts)) ∧
      hosts =
        (if 29 ≤ 30 then
          (List.range (2 ^ (32 - 29) - 2)).map (fun k =>
            exampleLib.String
              (beBytes 4 (167838211 % 2 ^ 32 / 2 ^ (32 - 29) * 2 ^ (32 - 29) + 1 + k)))
        else
          (List.range (2 ^ (32 - 29))).map (fun k =>
            exampleLib.String
              (beBytes 4 (167838211 % 2 ^ 32 / 2 ^ (32 - 29) * 2 ^ (32 - 29) + k)))) ∧
      hosts.length = (if 29 ≤ 30 then 2 ^ (32 - 29) - 2 else 2 ^ (32 - 29)) :=
  ParseHosts_ipv4 exampleLib (str "10.1.2.3/29") 8 167838211 29 (by decide) (by decide)
    (by decide) (by decide) (by decide)

/-- The hosts of `10.1.2.3/29`, `10.1.2.0/31` and `10.1.2.3/32`, computed. -/
theorem ParseHosts_examples :
    ParseHosts exampleLib 9 (str "10.1.2.3/29") =
      some (.ok [[10, 1, 2, 1], [10, 1, 2, 2], [10, 1, 2, 3], [10, 1, 2, 4], [10, 1, 2, 5],
        [10, 1, 2, 6]]) ∧
    ParseHosts exampleLib 9 (str "10.1.2.3/31") = some (.ok [[10, 1, 2, 2], [10, 1, 2, 3]]) ∧
    ParseHosts exampleLib 9 (str "10.1.2.3/32") = some (.ok [[10, 1, 2, 3]]) ∧
    ParseHosts exampleLib 9 (str "10.1.2.3/33") = some (.error .invalidCIDR) ∧
    ParseHosts exampleLib 9 (str "10.1.2.3") = some (.ok [str "10.1.2.3"]) := by
  decide

end network

/-! ## Decoding -/

namespace Go

/-- What decoding the first rune of a non-empty string gives: an ASCII byte is
its own rune, of width one; otherwise the rune is not ASCII, and neither is any
byte the rune takes up. -/
theorem decode_cases (s0 : Nat) (rest : GoString) :
    (s0 < 128 ∧ DecodeRuneInString (s0 :: rest) = (s0, 1)) ∨
    (128 ≤ s0 ∧ 128 ≤ (DecodeRuneInString (s0 :: rest)).1 ∧
      1 ≤ (DecodeRuneInString (s0 :: rest)).2 ∧
      (DecodeRuneInString (s0 :: rest)).2 ≤ (s0 :: rest).length ∧
      ∀ b ∈ (s0 :: rest).take (DecodeRuneInString (s0 :: rest)).2, 128 ≤ b) := by
  by_cases h : s0 < 128
  · left
    exact ⟨h, by simp [DecodeRuneInString, h]⟩
  · right
    refine ⟨by omega, ?_⟩
    rcases rest with _ | ⟨s1, _ | ⟨s2, _ | ⟨s3, rest⟩⟩⟩ <;>
      simp only [DecodeRuneInString, h, if_false, isCont, RuneError, Bool.and_eq_true,
        decide_eq_true_eq] <;>
      split_ifs <;>
      simp only [List.length_cons, List.length_nil, List.take_succ_cons, List.take_zero,
        List.mem_cons, List.mem_singleton, List.not_mem_nil, or_false, forall_eq_or_imp,
        forall_eq, List.take_nil] <;>
      omega

end Go

namespace scanner

theorem keepRune_lt {r : Nat} (h : keepRune r = true) : r < 128 := by
  simp only [keepRune, Bool.or_eq_true, Bool.and_eq_true, decide_eq_true_eq] at h
  omega

theorem keepRune_of_ge {r : Nat} (h : 128 ≤ r) : keepRune r = false := by
  cases hk : keepRune r with
  | false => rfl
  | true =>
    have := keepRune_lt hk
    omega

/-- Filtering the runes of a string for the kept characters is filtering its bytes. -/
theorem filter_runesAux (fuel : Nat) (s : GoString) (h : s.length ≤ fuel) :
    (runesAux fuel s).filter keepRune = s.filter keepRune := by
  induction fuel generalizing s with
  | zero =>
    have : s = [] := List.length_eq_zero.mp (by omega)
    subst this
    rfl
  | succ fuel ih =>
    cases s with
    | nil => rfl
    | cons s0 rest =>
      rw [runesAux]
      rcases decode_cases s0 rest with ⟨_, hd⟩ | ⟨_, hr, h1, hle, hall⟩
      · rw [hd]
        simp only [List.drop_succ_cons, List.drop_zero, List.filter_cons]
        rw [ih rest (by simpa using h)]
      · rw [List.filter_cons, keepRune_of_ge hr]
        simp only [Bool.false_eq_true, if_false]
        rw [ih _ (by rw [List.length_drop]; simp only [List.length_cons] at h ⊢; omega)]
        conv_rhs => rw [← List.take_append_drop (DecodeRuneInString (s0 :: rest)).2 (s0 :: rest)]
        rw [List.filter_append]
        have hnil : List.filter keepRune
            ((s0 :: rest).take (DecodeRuneInString (s0 :: rest)).2) = [] := by
          rw [List.filter_eq_nil_iff]
          intro b hb
          rw [keepRune_of_ge (hall b hb)]
          simp
        rw [hnil, List.nil_append]

theorem filter_runes (s : GoString) : (runes s).filter keepRune = s.filter keepRune :=
  filter_runesAux _ _ (Nat.le_refl _)

/-- Runes that are kept are ASCII, and converting them to a string gives them back as bytes. -/
theorem encode_kept (l : List Nat) (h : ∀ r ∈ l, keepRune r = true) :
    (l.map EncodeRune).flatten = l := by
  induction l with
  | nil => rfl
  | cons r l ih =>
    have hr : r < 128 := keepRune_lt (h r (List.mem_cons_self _ _))
    rw [List.map_cons, List.flatten_cons, ih (fun x hx => h x (List.mem_cons_of_mem _ hx))]
    simp [EncodeRune, hr]

/-- The test of the loop of `cleanBanner` accepts the allowed characters and no
other. -/
theorem keepRune_eq_specAllowed (r : Nat) : keepRune r = specAllowed r := by
  unfold keepRune specAllowed
  by_cases h : (32 ≤ r ∧ r ≤ 126) ∨ r = 10 ∨ r = 13 ∨ r = 9
  · rw [decide_eq_true h]
    simp only [Bool.or_eq_true, Bool.and_eq_true, decide_eq_true_eq]
    omega
  · rw [decide_eq_false h]
    rw [Bool.eq_false_iff]
    simp only [ne_eq, Bool.or_eq_true, Bool.and_eq_true, decide_eq_true_eq]
    omega

theorem filter_keepRune (l : List Nat) : l.filter keepRune = l.filter specAllowed := by
  congr 1
  funext r
  exact keepRune_eq_specAllowed r

/-- C5: for every input string, `cleanBanner` returns a string made only of
printable ASCII characters (codes 32..126), newline, carriage return and tab.
With `f` the input with all other characters removed (`specStripped`, the same
whether the input is read rune by rune or byte by byte), the result is exactly
`f` when `f` has at most 200 characters, and the first 200 characters of `f`
followed by `...` otherwise; it never exceeds 203 characters. -/
theorem cleanBanner_spec (banner : GoString) :
    (∀ c ∈ cleanBanner banner, (32 ≤ c ∧ c ≤ 126) ∨ c = 10 ∨ c = 13 ∨ c = 9) ∧
    ((specStripped banner).length ≤ 200 → cleanBanner banner = specStripped banner) ∧
    (200 < (specStripped banner).length →
      cleanBanner banner = (specStripped banner).take 200 ++ str "...") ∧
    (cleanBanner banner).length ≤ 203 ∧
    (runes banner).filter specAllowed = specStripped banner := by
  have hf := filter_runes banner
  have hkept : ∀ r ∈ banner.filter keepRune, keepRune r = true := fun r hr =>
    (List.mem_filter.mp hr).2
  have hclean : cleanBanner banner =
      if 200 < (specStripped banner).length then (specStripped banner).take 200 ++ str "..."
      else specStripped banner := by
    unfold cleanBanner specStripped
    simp only [hf, encode_kept _ hkept]
    rw [filter_keepRune]
  have hspec : ∀ r ∈ specStripped banner, keepRune r = true := by
    intro r hr
    rw [keepRune_eq_specAllowed]
    exact (List.mem_filter.mp hr).2
  have hdots : str "..." = [46, 46, 46] := by decide
  refine ⟨?_, ?_, ?_, ?_, ?_⟩
  · intro c hc
    rw [hclean] at hc
    have hk : keepRune c = true := by
      split at hc
      · rcases List.mem_append.mp hc with h | h
        · exact hspec c (List.mem_of_mem_take h)
        · rw [hdots] at h
          simp only [List.mem_cons, List.mem_singleton, List.not_mem_nil, or_false, or_self] at h
          subst h
          decide
      · exact hspec c hc
    simp only [keepRune, Bool.or_eq_true, Bool.and_eq_true, decide_eq_true_eq] at hk
    omega
  · intro h
    rw [hclean, if_neg (by omega)]
  · intro h
    rw [hclean, if_pos h]
  · rw [hclean]
    split
    · rw [List.length_append, List.length_take, hdots]
      simp only [List.length_cons, List.length_nil]
      omega
    · omega
  · rw [← filter_keepRune, hf, filter_keepRune]
    rfl

/-- What `cleanBanner` keeps and what it removes: a space, a tab, a carriage
return and a newline stay; a null byte, an escape, a delete, a byte that is not
valid UTF-8 and a letter with an accent go. -/
theorem cleanBanner_keeps_allowed :
    cleanBanner (str "a b") = str "a b" ∧
    cleanBanner (str "a\tb\r\n~") = str "a\tb\r\n~" ∧
    cleanBanner ([0, 104, 27, 255, 105, 127] ++ str "é!") = str "hi!" ∧
    specStripped ([0, 104, 27, 255, 105, 127] ++ str "é!") = str "hi!" := by
  decide

set_option maxRecDepth 100000 in
/-- The banner of the specification's test: control bytes, then 300 printable
characters; the result is the first 200 of them and the marker. -/
theorem cleanBanner_example :
    cleanBanner ([0, 1, 7, 255] ++ List.replicate 300 65) = List.replicate 200 65 ++ str "..." := by
  decide

/-- C4: on `<body>hi</body>` the search for the closing tag stops one position
short, at `i < len(lowerBanner)-7`, and never looks at position 8 where the tag
starts: `GetBody` returns the empty string.  With one more byte behind the tag
the body is found. -/
theorem GetBody_closing_tag_at_end :
    GetBody (str "<body>hi</body>") = some [] ∧
    findBodyEnd (lowerBanner (str "<body>hi</body>")) = none ∧
    findBodyStart (lowerBanner (str "<body>hi</body>")) = some 6 ∧
    GetBody (str "<body>hi</body>\n") = some (str "hi") := by
  decide

end scanner

/-! ## Searching a lower-cased banner -/

namespace Go

theorem Contains_nil (s : GoString) : Contains s [] = true := by
  cases s with
  | nil => rfl
  | cons c s => simp [Contains, HasPrefix, List.isPrefixOf]

/-- `Contains` finds `sub` exactly when the string splits around a copy of it. -/
theorem Contains_iff (s sub : GoString) :
    Contains s sub = true ↔ ∃ pre post, s = pre ++ sub ++ post := by
  induction s with
  | nil =>
    simp only [Contains, List.isEmpty_iff]
    constructor
    · rintro rfl
      exact ⟨[], [], rfl⟩
    · rintro ⟨pre, post, h⟩
      have h1 := List.append_eq_nil.mp h.symm
      exact (List.append_eq_nil.mp h1.1).2
  | cons c s ih =>
    simp only [Contains, HasPrefix, Bool.or_eq_true, ih, List.isPrefixOf_iff_prefix]
    constructor
    · rintro (⟨t, ht⟩ | ⟨pre, post, h⟩)
      · exact ⟨[], t, by simpa using ht.symm⟩
      · exact ⟨c :: pre, post, by simp [h]⟩
    · rintro ⟨pre, post, h⟩
      cases pre with
      | nil => exact Or.inl ⟨post, by simpa using h.symm⟩
      | cons p pre =>
        right
        simp only [List.cons_append, List.cons.injEq] at h
        exact ⟨pre, post, h.2⟩

theorem encode_lower_ascii (table : Nat → Nat) (r : Nat) (h : r < 128) :
    EncodeRune (ToLowerRune table r) = [asciiLower r] := by
  unfold ToLowerRune asciiLower
  rw [if_pos h]
  by_cases hc : 65 ≤ r ∧ r ≤ 90
  · rw [if_pos hc, EncodeRune, if_pos (by omega)]
  · rw [if_neg hc, EncodeRune, if_pos h]

theorem mem_take_append {α : Type} (l1 l2 : List α) (a : α) (n : Nat) (h : l1.length < n) :
    a ∈ (l1 ++ a :: l2).take n := by
  rw [List.take_append_eq_append_take]
  apply List.mem_append_right
  obtain ⟨k, hk⟩ : ∃ k, n - l1.length = k + 1 := ⟨n - l1.length - 1, by omega⟩
  rw [hk]
  simp

/-- Lower-casing a string that starts with ASCII bytes starts with their small letters. -/
theorem lower_ascii_start (table : Nat → Nat) (w post : GoString) (fuel : Nat)
    (hlen : (w ++ post).length ≤ fuel) (hw : ∀ b ∈ w, b < 128) :
    ∃ t, ((runesAux fuel (w ++ post)).map
      (fun r => EncodeRune (ToLowerRune table r))).flatten = w.map asciiLower ++ t := by
  induction w generalizing fuel with
  | nil => exact ⟨_, rfl⟩
  | cons a w ih =>
    obtain ⟨f, rfl⟩ : ∃ f, fuel = f + 1 := ⟨fuel - 1, by simp at hlen; omega⟩
    have ha : a < 128 := hw a (List.mem_cons_self _ _)
    rcases decode_cases a (w ++ post) with ⟨_, hd⟩ | ⟨hge, _⟩
    · obtain ⟨t, ht⟩ := ih f (by simp at hlen ⊢; omega) (fun b hb => hw b (List.mem_cons_of_mem _ hb))
      refine ⟨t, ?_⟩
      rw [List.cons_append, runesAux, hd]
      simp only [List.drop_succ_cons, List.drop_zero, List.map_cons, List.flatten_cons, ht,
        encode_lower_ascii table a ha, List.singleton_append, List.cons_append, List.nil_append]
    · omega

/-- Decoding a rune in front of an ASCII byte stops before that byte. -/
theorem decode_within (p0 : Nat) (pre : GoString) (a : Nat) (tail : GoString) (ha : a < 128) :
    1 ≤ (DecodeRuneInString (p0 :: (pre ++ a :: tail))).2 ∧
    (DecodeRuneInString (p0 :: (pre ++ a :: tail))).2 ≤ pre.length + 1 ∧
    (p0 :: (pre ++ a :: tail)).drop (DecodeRuneInString (p0 :: (pre ++ a :: tail))).2 =
      (p0 :: pre).drop (DecodeRuneInString (p0 :: (pre ++ a :: tail))).2 ++ a :: tail := by
  have hwidth : 1 ≤ (DecodeRuneInString (p0 :: (pre ++ a :: tail))).2 ∧
      (DecodeRuneInString (p0 :: (pre ++ a :: tail))).2 ≤ pre.length + 1 := by
    rcases decode_cases p0 (pre ++ a :: tail) with ⟨_, hd⟩ | ⟨_, _, h1, _, hall⟩
    · rw [hd]
      simp
    · refine ⟨h1, ?_⟩
      by_contra hgt
      have hmem : a ∈ (p0 :: (pre ++ a :: tail)).take
          (DecodeRuneInString (p0 :: (pre ++ a :: tail))).2 :=
        mem_take_append (p0 :: pre) tail a _ (by simp only [List.length_cons]; omega)
      have := hall a hmem
      omega
  refine ⟨hwidth.1, hwidth.2, ?_⟩
  generalize (DecodeRuneInString (p0 :: (pre ++ a :: tail))).2 = d at hwidth ⊢
  show ((p0 :: pre) ++ a :: tail).drop d = _
  rw [List.drop_append_of_le_length (by simp only [List.length_cons]; omega)]

theorem runesAux_step (table : Nat → Nat) (f s0 : Nat) (rest : GoString) :
    ((runesAux (f + 1) (s0 :: rest)).map (fun r => EncodeRune (ToLowerRune table r))).flatten =
      EncodeRune (ToLowerRune table (DecodeRuneInString (s0 :: rest)).1) ++
        ((runesAux f ((s0 :: rest).drop (DecodeRuneInString (s0 :: rest)).2)).map
          (fun r => EncodeRune (ToLowerRune table r))).flatten := by
  rw [runesAux]
  simp only [List.map_cons, List.flatten_cons]

/-- Lower-casing keeps every run of ASCII bytes in place, as small letters:
decoding never joins an ASCII byte to a neighbour. -/
theorem lower_ascii_run (table : Nat → Nat) (fuel : Nat) (s pre w post : GoString)
    (hlen : s.length ≤ fuel) (hs : s = pre ++ w ++ post) (hw : ∀ b ∈ w, b < 128) :
    ∃ x y, ((runesAux fuel s).map (fun r => EncodeRune (ToLowerRune table r))).flatten =
      x ++ w.map asciiLower ++ y := by
  induction fuel generalizing s pre with
  | zero =>
    have : s = [] := List.length_eq_zero.mp (by omega)
    subst this
    have h1 := List.append_eq_nil.mp hs.symm
    have h2 := List.append_eq_nil.mp h1.1
    rw [h2.2]
    exact ⟨[], [], rfl⟩
  | succ f ih =>
    cases w with
    | nil => exact ⟨[], _, rfl⟩
    | cons a w =>
      cases pre with
      | nil =>
        subst hs
        obtain ⟨t, ht⟩ := lower_ascii_start table (a :: w) post (f + 1) (by simpa using hlen) hw
        exact ⟨[], t, by simpa using ht⟩
      | cons p0 pre =>
        have ha : a < 128 := hw a (List.mem_cons_self _ _)
        have hs2 : s = p0 :: (pre ++ a :: (w ++ post)) := by
          rw [hs]
          simp
        subst hs2
        obtain ⟨h1, h2, h3⟩ := decode_within p0 pre a (w ++ post) ha
        rw [runesAux_step, h3]
        have hl : ((p0 :: pre).drop (DecodeRuneInString (p0 :: (pre ++ a :: (w ++ post)))).2 ++
            a :: (w ++ post)).length ≤ f := by
          rw [← h3, List.length_drop]
          simp only [List.length_cons] at hlen ⊢
          omega
        obtain ⟨x, y, hxy⟩ := ih
          ((p0 :: pre).drop (DecodeRuneInString (p0 :: (pre ++ a :: (w ++ post)))).2 ++
            a :: (w ++ post))
          ((p0 :: pre).drop (DecodeRuneInString (p0 :: (pre ++ a :: (w ++ post)))).2)
          hl (by simp)
        rw [hxy]
        exact ⟨EncodeRune (ToLowerRune table
          (DecodeRuneInString (p0 :: (pre ++ a :: (w ++ post)))).1) ++ x, y, by simp⟩

/-- A banner that contains an ASCII text in any letter case contains it, in
small letters, after `strings.ToLower`. -/
theorem Contains_ToLower (table : Nat → Nat) (banner sub : GoString)
    (hsub : ∀ c ∈ sub, c < 128) (h : specContainsAnyCase banner sub = true) :
    Contains (ToLower table banner) sub = true := by
  obtain ⟨pre', post', hsplit⟩ := (Contains_iff _ _).mp h
  obtain ⟨l1, post, h1, hl1, hpost⟩ := List.map_eq_append_iff.mp hsplit
  obtain ⟨pre, w, h2, hpre, hw⟩ := List.map_eq_append_iff.mp hl1
  have hascii : ∀ b ∈ w, b < 128 := by
    intro b hb
    have hm : asciiLower b ∈ sub := hw ▸ List.mem_map_of_mem _ hb
    have := hsub _ hm
    unfold asciiLower at this
    split at this <;> omega
  obtain ⟨x, y, hxy⟩ := lower_ascii_run table banner.length banner pre w post (Nat.le_refl _)
    (by rw [h1, h2]) hascii
  rw [Contains_iff]
  exact ⟨x, y, by rw [← hw]; exact hxy⟩

end Go

namespace scanner

theorem signature_texts :
    (∀ sig ∈ signatures, sig.1 ≠ []) ∧ (∀ sig ∈ signatures, sig.2 ≠ []) ∧
    (∀ e ∈ ServiceSignatures, e.2 ≠ []) := by
  decide

/-- The banner search finds nothing when no signature occurs. -/
theorem detect_none (table : Nat → Nat) (order : List (GoString × GoString)) (banner : GoString)
    (hperm : order.Perm signatures)
    (h : ∀ sig ∈ signatures, Contains (ToLower table banner) sig.1 = false) :
    detectServiceFromBanner table order banner = [] := by
  unfold detectServiceFromBanner
  have : order.find? (fun sig => Contains (ToLower table banner) sig.1) = none := by
    rw [List.find?_eq_none]
    intro sig hs
    rw [h sig (hperm.mem_iff.mp hs)]
    simp
  simp only [this]

/-- The banner search returns the label of a signature that occurs, when one does. -/
theorem detect_some (table : Nat → Nat) (order : List (GoString × GoString)) (banner : GoString)
    (hperm : order.Perm signatures)
    (h : ∃ sig ∈ signatures, Contains (ToLower table banner) sig.1 = true) :
    ∃ sig ∈ signatures, Contains (ToLower table banner) sig.1 = true ∧
      detectServiceFromBanner table order banner = sig.2 := by
  unfold detectServiceFromBanner
  cases hf : order.find? (fun sig => Contains (ToLower table banner) sig.1) with
  | none =>
    obtain ⟨sig, hs, hc⟩ := h
    rw [List.find?_eq_none] at hf
    exact absurd hc (by simpa using hf sig (hperm.mem_iff.mpr hs))
  | some sig =>
    exact ⟨sig, hperm.mem_iff.mp (List.mem_of_find?_eq_some hf),
      by simpa using List.find?_some hf, by simp only [hf]⟩

theorem ToLower_nil (table : Nat → Nat) : ToLower table [] = [] := rfl

theorem no_signature_of_empty (table : Nat → Nat) :
    ∀ sig ∈ signatures, Contains (ToLower table []) sig.1 = false := by
  intro sig hs
  rw [ToLower_nil]
  have := signature_texts.1 sig hs
  cases h : sig.1 with
  | nil => exact absurd h this
  | cons c t => rfl

/-- C6, the claim as stated fails: port 9999 is not in the table, the banner
contains `nginx`, and with the signatures ranged over in the order of the
source the signature `http/` is met first, so the label is `HTTP`. -/
theorem IdentifyService_nginx_not_first :
    signatures.Perm signatures ∧
    ServiceSignatures.lookup 9999 = none ∧
    specContainsAnyCase (str "HTTP/1.1 200 OK Server: nginx") (str "nginx") = true ∧
    IdentifyService id signatures 9999 (str "HTTP/1.1 200 OK Server: nginx") = str "HTTP" :=
  ⟨List.Perm.refl _, by decide, by decide, by decide⟩

/-- C6 (amended): for every port that is not in the well-known-service table and
every banner that contains `nginx` in any letter case, `IdentifyService` returns
the label of a signature that the lower-cased banner contains, whichever the
map iteration meets first; the label is `nginx` whenever none of the other
signatures occurs in the lower-cased banner. -/
theorem IdentifyService_nginx (table : Nat → Nat) (order : List (GoString × GoString))
    (port : Int) (banner : GoString) (hperm : order.Perm signatures)
    (hport : ServiceSignatures.lookup port = none)
    (hn : specContainsAnyCase banner (str "nginx") = true) :
    (∃ sig ∈ signatures, Contains (ToLower table banner) sig.1 = true ∧
      IdentifyService table order port banner = sig.2) ∧
    ((∀ sig ∈ signatures, sig.1 ≠ str "nginx" →
        Contains (ToLower table banner) sig.1 = false) →
      IdentifyService table order port banner = str "nginx") := by
  have hc : Contains (ToLower table banner) (str "nginx") = true :=
    Contains_ToLower table banner (str "nginx") (by decide) hn
  have hne : banner ≠ [] := by
    rintro rfl
    revert hn
    decide
  obtain ⟨sig, hs, hcs, hd⟩ := detect_some table order banner hperm
    ⟨(str "nginx", str "nginx"), by decide, hc⟩
  have hid : IdentifyService table order port banner = sig.2 := by
    unfold IdentifyService
    rw [hport]
    simp only
    rw [if_pos ⟨hne, by rw [hd]; exact signature_texts.2.1 sig hs⟩, hd]
  refine ⟨⟨sig, hs, hcs, hid⟩, ?_⟩
  intro hothers
  rw [hid]
  by_cases hk : sig.1 = str "nginx"
  · have hall : ∀ s ∈ signatures, s.1 = str "nginx" → s.2 = str "nginx" := by decide
    exact hall sig hs hk
  · rw [hothers sig hs hk] at hcs
    cases hcs

/-- C6 (amended) at port 9999 and the banner `Server: NgInX`. -/
theorem IdentifyService_nginx_witness :
    (signatures.reverse.Perm signatures ∧ ServiceSignatures.lookup 9999 = none ∧
      specContainsAnyCase (str "Server: NgInX") (str "nginx") = true) ∧
    IdentifyService id signatures.reverse 9999 (str "Server: NgInX") = str "nginx" :=
  ⟨⟨List.reverse_perm _, by decide, by decide⟩,
   (IdentifyService_nginx id signatures.reverse 9999 (str "Server: NgInX")
      (List.reverse_perm _) (by decide) (by decide)).2 (by decide)⟩

/-- C7: for every port and banner, and every order in which the signatures are
ranged over, `IdentifyService` follows the four-step policy.  A port of the
table with label `L` (22 has `SSH`) and an empty banner, or one whose
lower-cased text contains no signature, give `L`; a port with label `L` and a
banner whose lower-cased text contains a signature give `L (B)` for the label
`B` of such a signature; a port outside the table and such a banner give such a
`B` alone; anything else gives `Unknown`.  The result is never empty. -/
theorem IdentifyService_policy (table : Nat → Nat) (order : List (GoString × GoString))
    (port : Int) (banner : GoString) (hperm : order.Perm signatures) :
    ServiceSignatures.lookup 22 = some (str "SSH") ∧
    (∀ L, ServiceSignatures.lookup port = some L →
      (banner = [] ∨ ∀ sig ∈ signatures, Contains (ToLower table banner) sig.1 = false) →
      IdentifyService table order port banner = L) ∧
    (∀ L, ServiceSignatures.lookup port = some L →
      (∃ sig ∈ signatures, Contains (ToLower table banner) sig.1 = true) →
      ∃ sig ∈ signatures, Contains (ToLower table banner) sig.1 = true ∧
        IdentifyService table order port banner = L ++ str " (" ++ sig.2 ++ str ")") ∧
    (ServiceSignatures.lookup port = none →
      (∃ sig ∈ signatures, Contains (ToLower table banner) sig.1 = true) →
      ∃ sig ∈ signatures, Contains (ToLower table banner) sig.1 = true ∧
        IdentifyService table order port banner = sig.2) ∧
    (ServiceSignatures.lookup port = none →
      (∀ sig ∈ signatures, Contains (ToLower table banner) sig.1 = false) →
      IdentifyService table order port banner = str "Unknown") ∧
    IdentifyService table order port banner ≠ [] := by
  have hnone : (∀ sig ∈ signatures, Contains (ToLower table banner) sig.1 = false) →
      ¬ (banner ≠ [] ∧ detectServiceFromBanner table order banner ≠ []) := by
    intro h hb
    exact hb.2 (detect_none table order banner hperm h)
  have hsome : (∃ sig ∈ signatures, Contains (ToLower table banner) sig.1 = true) →
      ∃ sig ∈ signatures, Contains (ToLower table banner) sig.1 = true ∧
        detectServiceFromBanner table order banner = sig.2 ∧
        (banner ≠ [] ∧ detectServiceFromBanner table order banner ≠ []) := by
    intro h
    obtain ⟨sig, hs, hc, hd⟩ := detect_some table order banner hperm h
    refine ⟨sig, hs, hc, hd, ?_, by rw [hd]; exact signature_texts.2.1 sig hs⟩
    rintro rfl
    rw [no_signature_of_empty table sig hs] at hc
    cases hc
  refine ⟨by decide, ?_, ?_, ?_, ?_, ?_⟩
  · intro L hL hcase
    unfold IdentifyService
    rw [hL]
    simp only
    rcases hcase with rfl | h
    · rw [if_neg (fun hb => hb.1 rfl)]
    · rw [if_neg (hnone h)]
  · intro L hL h
    obtain ⟨sig, hs, hc, hd, hb⟩ := hsome h
    refine ⟨sig, hs, hc, ?_⟩
    unfold IdentifyService
    rw [hL]
    simp only
    rw [if_pos hb, hd]
  · intro hL h
    obtain ⟨sig, hs, hc, hd, hb⟩ := hsome h
    refine ⟨sig, hs, hc, ?_⟩
    unfold IdentifyService
    rw [hL]
    simp only
    rw [if_pos hb, hd]
  · intro hL h
    unfold IdentifyService
    rw [hL]
    simp only
    rw [if_neg (hnone h)]
  · unfold IdentifyService
    cases hL : ServiceSignatures.lookup port with
    | none =>
      simp only
      split
      · rename_i hb
        exact hb.2
      · decide
    | some L =>
      have hLne : L ≠ [] := by
        have hmem : (port, L) ∈ ServiceSignatures := by
          have := List.lookup_eq_some_iff.mp hL
          obtain ⟨l1, l2, h1, _⟩ := this
          rw [h1]
          simp
        exact signature_texts.2.2 _ hmem
      simp only
      split
      · intro h
        have h1 := List.append_eq_nil.mp h
        have h2 := List.append_eq_nil.mp h1.1
        exact hLne (List.append_eq_nil.mp h2.1).1
      · exact hLne

/-- C7 at port 80 and the banner `Server: nginx`, the signatures ranged over in
reverse: the label of the port with a banner label in brackets. -/
theorem IdentifyService_policy_witness :
    signatures.reverse.Perm signatures ∧
    ∃ sig ∈ signatures, Contains (ToLower id (str "Server: nginx")) sig.1 = true ∧
      IdentifyService id signatures.reverse 80 (str "Server: nginx") =
        str "HTTP" ++ str " (" ++ sig.2 ++ str ")" :=
  ⟨List.reverse_perm _,
   (IdentifyService_policy id signatures.reverse 80 (str "Server: nginx")
      (List.reverse_perm _)).2.2.1 (str "HTTP") (by decide)
      ⟨(str "nginx", str "nginx"), by decide, by decide⟩⟩

/-- The examples of the specification: port 22 without a banner, an unknown port
with an `nginx` banner in mixed case, and an unknown port without a signature. -/
theorem IdentifyService_examples :
    IdentifyService id signatures 22 [] = str "SSH" ∧
    IdentifyService id signatures 9999 (str "Server: NGinx/1.18") = str "nginx" ∧
    IdentifyService id signatures 8080 (str "Server: nginx") = str "HTTP-Proxy (nginx)" ∧
    IdentifyService id signatures 9999 (str "hello") = str "Unknown" := by
  decide

end scanner

/-! ## Runs of the scan -/

namespace scanner

theorem workers_split {α : Type} (ws : List α) (i : Nat) (w w' : α) (h : ws[i]? = some w) :
    ∃ l1 l2, ws = l1 ++ w :: l2 ∧ ws.set i w' = l1 ++ w' :: l2 := by
  induction ws generalizing i with
  | nil => simp at h
  | cons x ws ih =>
    cases i with
    | zero =>
      simp only [List.getElem?_cons_zero, Option.some.injEq] at h
      subst h
      exact ⟨[], ws, rfl, rfl⟩
    | succ i =>
      simp only [List.getElem?_cons_succ] at h
      obtain ⟨l1, l2, h1, h2⟩ := ih i h
      exact ⟨x :: l1, l2, by rw [h1]; rfl, by rw [List.set_cons_succ, h2]; rfl⟩

theorem ScanPort_port {table : Nat → Nat} {order : List (GoString × GoString)}
    {host : GoString} {port : Int} {net : NetOutcome} {r : ScanResult}
    (h : ScanPort table order host port net = some r) : r.Port = port ∧ r.Host = host := by
  unfold ScanPort at h
  split at h
  · cases h; exact ⟨rfl, rfl⟩
  · cases h; exact ⟨rfl, rfl⟩
  · split at h
    · split at h
      · split at h
        · cases h; exact ⟨rfl, rfl⟩
        · cases h
      · cases h; exact ⟨rfl, rfl⟩
    · cases h; exact ⟨rfl, rfl⟩

theorem updateStats_sum (stats : ScanStatistics) (r : ScanResult) :
    (updateStats stats r).OpenPorts + (updateStats stats r).ClosedPorts +
        (updateStats stats r).FilteredPorts =
      stats.OpenPorts + stats.ClosedPorts + stats.FilteredPorts + 1 ∧
    (updateStats stats r).TotalPorts = stats.TotalPorts := by
  rcases r with ⟨_, _, status, _, _, _⟩
  cases status <;> exact ⟨by simp only [updateStats]; omega, rfl⟩

/-- The state in which `scanConcurrent` starts satisfies the invariant. -/
theorem initialState_inv (s : Scanner) (ports : List Int) :
    RunInv ports s.config.MaxConcurrency.toNat (initialState s ports) where
  ports_perm := by
    have h : ∀ n, ((List.replicate n WorkerState.ranging).map heldPorts).flatten = [] := by
      intro n
      induction n with
      | zero => rfl
      | succ n ih => simp [List.replicate_succ, heldPorts]
    show (ports ++ [] ++ ((List.replicate _ WorkerState.ranging).map heldPorts).flatten ++ [] ++
      []).Perm ports
    rw [h]
    simp
  counted := by
    have h : ∀ n, (List.replicate n WorkerState.ranging).countP isSending = 0 := by
      intro n
      induction n with
      | zero => rfl
      | succ n ih => simp [List.replicate_succ, isSending]
    simp [initialState, ScanStatistics.zero, h]
  total := rfl
  cap_eq := rfl
  workers_length := by simp [initialState]
  closed_sent := by simp [initialState]
  done_closed := by
    rintro ⟨w, hw, rfl⟩
    simp [initialState, List.mem_replicate] at hw
  rclosed_done := by simp [initialState]
  returned_closed := by simp [initialState]

end scanner

namespace scanner

theorem perm_of_count {l1 l2 ports : List Int} (h : l1.Perm ports)
    (hc : ∀ a, l2.count a = l1.count a) : l2.Perm ports :=
  (List.perm_iff_count.mpr hc).trans h

theorem mem_split_done {l1 l2 : List WorkerState} {w : WorkerState}
    (hw : w ≠ WorkerState.done) (h : ∃ x ∈ l1 ++ w :: l2, x = WorkerState.done)
    (w0 : WorkerState) : ∃ x ∈ l1 ++ w0 :: l2, x = WorkerState.done := by
  obtain ⟨x, hx, rfl⟩ := h
  simp only [List.mem_append, List.mem_cons] at hx ⊢
  rcases hx with h1 | h2 | h3
  · exact ⟨_, Or.inl h1, rfl⟩
  · exact absurd h2.symm hw
  · exact ⟨_, Or.inr (Or.inr h3), rfl⟩

/-- Every step of a run keeps the invariant. -/
theorem step_inv {table : Nat → Nat} {ports : List Int} {n : Nat} {l : Label}
    {st st' : RunState} (inv : RunInv ports n st) (hs : step table l st = some st') :
    RunInv ports n st' := by
  unfold step at hs
  split at hs
  · cases hs
  · cases l with
    | send =>
      simp only at hs
      split at hs
      · rename_i p rest hsend
        split at hs
        · cases hs
          exact
            { ports_perm := perm_of_count inv.ports_perm (fun a => by
                simp only [hsend, List.count_append, List.count_cons, List.count_nil]
                omega)
              counted := inv.counted
              total := inv.total
              cap_eq := inv.cap_eq
              workers_length := inv.workers_length
              closed_sent := fun h => by
                have := inv.closed_sent h
                rw [hsend] at this
                cases this
              done_closed := fun h => by
                have h1 := (inv.done_closed h).1
                have := inv.closed_sent h1
                rw [hsend] at this
                cases this
              rclosed_done := inv.rclosed_done
              returned_closed := inv.returned_closed }
        · cases hs
      · cases hs
    | closePorts =>
      simp only at hs
      split at hs
      · rename_i hg
        cases hs
        exact
          { ports_perm := inv.ports_perm
            counted := inv.counted
            total := inv.total
            cap_eq := inv.cap_eq
            workers_length := inv.workers_length
            closed_sent := fun _ => hg.1
            done_closed := fun h => by
              have h1 := (inv.done_closed h).1
              rw [hg.2] at h1
              cases h1
            rclosed_done := inv.rclosed_done
            returned_closed := inv.returned_closed }
      · cases hs
    | recv i =>
      simp only at hs
      split at hs
      · rename_i p rest hw hpc
        cases hs
        obtain ⟨l1, l2, hws, hset⟩ := workers_split st.workers i _ (WorkerState.scanning p) hw
        rw [hws] at hset
        exact
          { ports_perm := perm_of_count inv.ports_perm (fun a => by
              simp only [hpc, hws, hset, List.map_append, List.map_cons, List.flatten_append,
                List.flatten_cons, heldPorts, List.count_append, List.count_cons, List.count_nil]
              omega)
            counted := by
              have := inv.counted
              simp only [hws, hset, List.countP_append, List.countP_cons, isSending] at this ⊢
              simp only [Bool.false_eq_true, if_false, if_true] at this ⊢
              omega
            total := inv.total
            cap_eq := inv.cap_eq
            workers_length := by
              simp only [List.length_set]
              exact inv.workers_length
            closed_sent := inv.closed_sent
            done_closed := fun h => by
              have h0 : ∃ x ∈ st.workers, x = WorkerState.done := by
                rw [hws]
                rw [hws, hset] at h
                exact mem_split_done (by simp) h _
              have := (inv.done_closed h0).2
              rw [hpc] at this
              cases this
            rclosed_done := fun h => by
              have := inv.rclosed_done h WorkerState.ranging (by rw [hws]; simp)
              cases this
            returned_closed := inv.returned_closed }
      · cases hs
    | leave i =>
      simp only at hs
      split at hs
      · rename_i hw
        split at hs
        · rename_i hg
          cases hs
          obtain ⟨l1, l2, hws, hset⟩ := workers_split st.workers i _ WorkerState.done hw
          rw [hws] at hset
          exact
            { ports_perm := perm_of_count inv.ports_perm (fun a => by
                simp only [hws, hset, List.map_append, List.map_cons, List.flatten_append,
                  List.flatten_cons, heldPorts, List.count_append, List.count_cons,
                  List.count_nil])
              counted := by
                have := inv.counted
                simp only [hws, hset, List.countP_append, List.countP_cons, isSending] at this ⊢
                simp only [Bool.false_eq_true, if_false, if_true] at this ⊢
                omega
              total := inv.total
              cap_eq := inv.cap_eq
              workers_length := by
                simp only [List.length_set]
                exact inv.workers_length
              closed_sent := inv.closed_sent
              done_closed := fun _ => ⟨hg.2, hg.1⟩
              rclosed_done := fun h => by
                have := inv.rclosed_done h WorkerState.ranging (by rw [hws]; simp)
                cases this
              returned_closed := inv.returned_closed }
        · cases hs
      · cases hs
    | scan i net order =>
      simp only at hs
      split at hs
      · rename_i p hw
        split at hs
        · split at hs
          · rename_i r hr
            cases hs
            obtain ⟨l1, l2, hws, hset⟩ := workers_split st.workers i _ (WorkerState.updating r) hw
            rw [hws] at hset
            have hport := (ScanPort_port hr).1
            exact
              { ports_perm := perm_of_count inv.ports_perm (fun a => by
                  simp only [hws, hset, hport, List.map_append, List.map_cons,
                    List.flatten_append, List.flatten_cons, heldPorts, List.count_append,
                    List.count_cons, List.count_nil])
                counted := by
                  have := inv.counted
                  simp only [hws, hset, List.countP_append, List.countP_cons, isSending] at this ⊢
                  simp only [Bool.false_eq_true, if_false, if_true] at this ⊢
                  omega
                total := inv.total
                cap_eq := inv.cap_eq
                workers_length := by
                  simp only [List.length_set]
                  exact inv.workers_length
                closed_sent := inv.closed_sent
                done_closed := fun h => by
                  apply inv.done_closed
                  rw [hws]
                  rw [hws, hset] at h
                  exact mem_split_done (by simp) h _
                rclosed_done := fun h => by
                  have := inv.rclosed_done h (WorkerState.scanning p) (by rw [hws]; simp)
                  cases this
                returned_closed := inv.returned_closed }
          · cases hs
            exact
              { ports_perm := inv.ports_perm
                counted := inv.counted
                total := inv.total
                cap_eq := inv.cap_eq
                workers_length := inv.workers_length
                closed_sent := inv.closed_sent
                done_closed := inv.done_closed
                rclosed_done := inv.rclosed_done
                returned_closed := inv.returned_closed }
        · cases hs
      · cases hs
    | update i =>
      simp only at hs
      split at hs
      · rename_i r hw
        cases hs
        obtain ⟨l1, l2, hws, hset⟩ := workers_split st.workers i _ (WorkerState.sending r) hw
        rw [hws] at hset
        exact
          { ports_perm := perm_of_count inv.ports_perm (fun a => by
              simp only [hws, hset, List.map_append, List.map_cons, List.flatten_append,
                List.flatten_cons, heldPorts, List.count_append, List.count_cons,
                List.count_nil])
            counted := by
              have := inv.counted
              have hu := (updateStats_sum st.stats r).1
              simp only [hws, hset, List.countP_append, List.countP_cons, isSending] at this ⊢
              simp only [Bool.false_eq_true, if_false, if_true] at this ⊢
              omega
            total := by
              have := inv.total
              have hu := (updateStats_sum st.stats r).2
              simp only
              omega
            cap_eq := inv.cap_eq
            workers_length := by
              simp only [List.length_set]
              exact inv.workers_length
            closed_sent := inv.closed_sent
            done_closed := fun h => by
              apply inv.done_closed
              rw [hws]
              rw [hws, hset] at h
              exact mem_split_done (by simp) h _
            rclosed_done := fun h => by
              have := inv.rclosed_done h (WorkerState.updating r) (by rw [hws]; simp)
              cases this
            returned_closed := inv.returned_closed }
      · cases hs
    | emit i =>
      simp only at hs
      split at hs
      · rename_i r hw
        split at hs
        · cases hs
          obtain ⟨l1, l2, hws, hset⟩ := workers_split st.workers i _ WorkerState.ranging hw
          rw [hws] at hset
          exact
            { ports_perm := perm_of_count inv.ports_perm (fun a => by
                simp only [hws, hset, List.map_append, List.map_cons, List.flatten_append,
                  List.flatten_cons, heldPorts, List.count_append, List.count_cons,
                  List.count_nil, List.map_nil]
                omega)
              counted := by
                have := inv.counted
                simp only [hws, hset, List.countP_append, List.countP_cons, isSending,
                  List.length_append, List.length_cons, List.length_nil] at this ⊢
                simp only [Bool.false_eq_true, if_false, if_true] at this ⊢
                omega
              total := inv.total
              cap_eq := inv.cap_eq
              workers_length := by
                simp only [List.length_set]
                exact inv.workers_length
              closed_sent := inv.closed_sent
              done_closed := fun h => by
                apply inv.done_closed
                rw [hws]
                rw [hws, hset] at h
                exact mem_split_done (by simp) h _
              rclosed_done := fun h => by
                have := inv.rclosed_done h (WorkerState.sending r) (by rw [hws]; simp)
                cases this
              returned_closed := fun h => by
                have h1 := (inv.returned_closed h).1
                have := inv.rclosed_done h1 (WorkerState.sending r) (by rw [hws]; simp)
                cases this }
        · cases hs
      · cases hs
    | closeResults =>
      simp only at hs
      split at hs
      · rename_i hg
        cases hs
        exact
          { ports_perm := inv.ports_perm
            counted := inv.counted
            total := inv.total
            cap_eq := inv.cap_eq
            workers_length := inv.workers_length
            closed_sent := inv.closed_sent
            done_closed := inv.done_closed
            rclosed_done := fun _ w hw => by
              have := List.all_eq_true.mp hg.1 w hw
              simpa using this
            returned_closed := fun h => by
              have h1 := (inv.returned_closed h).1
              rw [hg.2] at h1
              cases h1 }
      · cases hs
    | collect =>
      simp only at hs
      split at hs
      · rename_i r rest hrc
        split at hs
        · rename_i hret
          cases hs
          exact
            { ports_perm := perm_of_count inv.ports_perm (fun a => by
                simp only [hrc, List.map_append, List.map_cons, List.map_nil, List.count_append,
                  List.count_cons, List.count_nil]
                omega)
              counted := by
                have := inv.counted
                simp only [hrc, List.length_append, List.length_cons, List.length_nil] at this ⊢
                omega
              total := inv.total
              cap_eq := inv.cap_eq
              workers_length := inv.workers_length
              closed_sent := inv.closed_sent
              done_closed := inv.done_closed
              rclosed_done := inv.rclosed_done
              returned_closed := fun h => by
                rw [hret] at h
                cases h }
        · cases hs
      · cases hs
    | finish elapsed =>
      simp only at hs
      split at hs
      · rename_i hg
        cases hs
        exact
          { ports_perm := inv.ports_perm
            counted := inv.counted
            total := inv.total
            cap_eq := inv.cap_eq
            workers_length := inv.workers_length
            closed_sent := inv.closed_sent
            done_closed := inv.done_closed
            rclosed_done := inv.rclosed_done
            returned_closed := fun _ => ⟨hg.2.2, hg.2.1⟩ }
      · cases hs

end scanner

namespace scanner

theorem weight_split (l1 l2 : List WorkerState) (w : WorkerState) :
    ((l1 ++ w :: l2).map workerWeight).sum =
      (l1.map workerWeight).sum + workerWeight w + (l2.map workerWeight).sum := by
  simp only [List.map_append, List.map_cons, List.sum_append, List.sum_cons]
  omega

/-- Every step of a run lowers the measure. -/
theorem step_measure {table : Nat → Nat} {l : Label} {st st' : RunState}
    (hs : step table l st = some st') : measure st' < measure st := by
  unfold step at hs
  split at hs
  · cases hs
  · rename_i hcr
    have hcr : st.crashed = false := by simpa using hcr
    cases l with
    | send =>
      simp only at hs
      split at hs
      · rename_i p rest hsend
        split at hs
        · cases hs
          simp only [measure, hcr, hsend, List.length_append, List.length_cons, List.length_nil,
            Bool.false_eq_true, if_false]
          omega
        · cases hs
      · cases hs
    | closePorts =>
      simp only at hs
      split at hs
      · rename_i hg
        cases hs
        simp only [measure, hcr, hg.2, Bool.false_eq_true, if_false, if_true]
        omega
      · cases hs
    | recv i =>
      simp only at hs
      split at hs
      · rename_i p rest hw hpc
        cases hs
        obtain ⟨l1, l2, hws, hset⟩ := workers_split st.workers i _ (WorkerState.scanning p) hw
        rw [hws] at hset
        simp only [measure, hcr, hpc, hws, hset, weight_split, workerWeight, List.length_cons,
          Bool.false_eq_true, if_false]
        omega
      · cases hs
    | leave i =>
      simp only at hs
      split at hs
      · rename_i hw
        split at hs
        · cases hs
          obtain ⟨l1, l2, hws, hset⟩ := workers_split st.workers i _ WorkerState.done hw
          rw [hws] at hset
          simp only [measure, hcr, hws, hset, weight_split, workerWeight, Bool.false_eq_true,
            if_false]
          omega
        · cases hs
      · cases hs
    | scan i net order =>
      simp only at hs
      split at hs
      · rename_i p hw
        split at hs
        · split at hs
          · rename_i r hr
            cases hs
            obtain ⟨l1, l2, hws, hset⟩ := workers_split st.workers i _ (WorkerState.updating r) hw
            rw [hws] at hset
            simp only [measure, hcr, hws, hset, weight_split, workerWeight, Bool.false_eq_true,
              if_false]
            omega
          · cases hs
            obtain ⟨l1, l2, hws, _⟩ := workers_split st.workers i _ WorkerState.done hw
            simp only [measure, hcr, hws, weight_split, workerWeight, Bool.false_eq_true,
              if_false, if_true]
            omega
        · cases hs
      · cases hs
    | update i =>
      simp only at hs
      split at hs
      · rename_i r hw
        cases hs
        obtain ⟨l1, l2, hws, hset⟩ := workers_split st.workers i _ (WorkerState.sending r) hw
        rw [hws] at hset
        simp only [measure, hcr, hws, hset, weight_split, workerWeight, Bool.false_eq_true,
          if_false]
        omega
      · cases hs
    | emit i =>
      simp only at hs
      split at hs
      · rename_i r hw
        split at hs
        · cases hs
          obtain ⟨l1, l2, hws, hset⟩ := workers_split st.workers i _ WorkerState.ranging hw
          rw [hws] at hset
          simp only [measure, hcr, hws, hset, weight_split, workerWeight, List.length_append,
            List.length_cons, List.length_nil, Bool.false_eq_true, if_false]
          omega
        · cases hs
      · cases hs
    | closeResults =>
      simp only at hs
      split at hs
      · rename_i hg
        cases hs
        simp only [measure, hcr, hg.2, Bool.false_eq_true, if_false, if_true]
        omega
      · cases hs
    | collect =>
      simp only at hs
      split at hs
      · rename_i r rest hrc
        split at hs
        · cases hs
          simp only [measure, hcr, hrc, List.length_cons, Bool.false_eq_true, if_false]
          omega
        · cases hs
      · cases hs
    | finish elapsed =>
      simp only at hs
      split at hs
      · rename_i hg
        cases hs
        simp only [measure, hcr, hg.1, Bool.false_eq_true, if_false, if_true]
        omega
      · cases hs

theorem run_inv {table : Nat → Nat} {ports : List Int} {n : Nat} (sched : List Label)
    {st st' : RunState} (inv : RunInv ports n st) (h : run table sched st = some st') :
    RunInv ports n st' := by
  induction sched generalizing st with
  | nil =>
    simp only [run, Option.some.injEq] at h
    subst h
    exact inv
  | cons l rest ih =>
    rw [run] at h
    split at h
    · rename_i st1 h1
      exact ih (step_inv inv h1) h
    · cases h

/-- A run is no longer than the measure of the state it starts in. -/
theorem run_measure {table : Nat → Nat} (sched : List Label) {st st' : RunState}
    (h : run table sched st = some st') : sched.length + measure st' ≤ measure st := by
  induction sched generalizing st with
  | nil =>
    simp only [run, Option.some.injEq] at h
    subst h
    simp
  | cons l rest ih =>
    rw [run] at h
    split at h
    · rename_i st1 h1
      have := ih h
      have := step_measure h1
      simp only [List.length_cons]
      omega
    · cases h

theorem run_append {table : Nat → Nat} (s1 s2 : List Label) (st : RunState) :
    run table (s1 ++ s2) st =
      match run table s1 st with
      | some st1 => run table s2 st1
      | none => none := by
  induction s1 generalizing st with
  | nil => rfl
  | cons l rest ih =>
    simp only [List.cons_append, run]
    cases step table l st with
    | none => rfl
    | some st1 => exact ih st1

end scanner

namespace scanner

theorem inv_length {ports : List Int} {n : Nat} {st : RunState} (inv : RunInv ports n st) :
    st.toSend.length + st.portsChan.length + ((st.workers.map heldPorts).flatten).length +
      st.resultsChan.length + st.results.length = ports.length := by
  have := inv.ports_perm.length_eq
  simpa only [List.length_append, List.length_map] using this

/-- A run that has neither crashed nor returned can go on, by a step that does
not crash: no goroutine waits for ever. -/
theorem progress {table : Nat → Nat} {ports : List Int} {n : Nat} {st : RunState}
    (inv : RunInv ports n st) (hcr : st.crashed = false) (hret : st.returned = false) :
    ∃ l st', step table l st = some st' ∧ st'.crashed = false := by
  have hlen := inv_length inv
  have hcap := inv.cap_eq
  cases hsend : st.toSend with
  | cons p rest =>
    refine ⟨.send, ?_⟩
    rw [hsend] at hlen
    simp only [List.length_cons] at hlen
    simp only [step, hcr, hsend, Bool.false_eq_true, if_false]
    rw [if_pos (by omega)]
    exact ⟨_, rfl, rfl⟩
  | nil =>
    cases hpc : st.portsClosed with
    | false =>
      refine ⟨.closePorts, ?_⟩
      simp only [step, hcr, hsend, hpc, Bool.false_eq_true, if_false, and_self, if_true]
      exact ⟨_, rfl, rfl⟩
    | true =>
      by_cases hall : st.workers.all (fun w => decide (w = WorkerState.done)) = true
      · cases hrc : st.resultsClosed with
        | false =>
          refine ⟨.closeResults, ?_⟩
          simp only [step, hcr, hall, hrc, Bool.false_eq_true, if_false, and_self, if_true]
          exact ⟨_, rfl, rfl⟩
        | true =>
          cases hch : st.resultsChan with
          | nil =>
            refine ⟨.finish 0, ?_⟩
            simp only [step, hcr, hret, hch, hrc, Bool.false_eq_true, if_false, and_self, if_true]
            exact ⟨_, rfl, rfl⟩
          | cons r rest =>
            refine ⟨.collect, ?_⟩
            simp only [step, hcr, hret, hch, Bool.false_eq_true, if_false, if_true]
            exact ⟨_, rfl, rfl⟩
      · obtain ⟨w, hw, hnd⟩ : ∃ w ∈ st.workers, w ≠ WorkerState.done := by
          by_contra hno
          apply hall
          rw [List.all_eq_true]
          intro w hw
          by_contra hd
          exact hno ⟨w, hw, by simpa using hd⟩
        obtain ⟨i, hi⟩ := List.mem_iff_getElem?.mp hw
        cases w with
        | done => exact absurd rfl hnd
        | ranging =>
          cases hch : st.portsChan with
          | nil =>
            refine ⟨.leave i, ?_⟩
            simp only [step, hcr, hi, hch, hpc, Bool.false_eq_true, if_false, and_self, if_true]
            exact ⟨_, rfl, rfl⟩
          | cons p rest =>
            refine ⟨.recv i, ?_⟩
            simp only [step, hcr, hi, hch, Bool.false_eq_true, if_false]
            exact ⟨_, rfl, rfl⟩
        | scanning p =>
          refine ⟨.scan i .refused signatures, ?_⟩
          simp only [step, hcr, hi, Bool.false_eq_true, if_false, List.Perm.refl, if_true, ScanPort]
          exact ⟨_, rfl, rfl⟩
        | updating r =>
          refine ⟨.update i, ?_⟩
          simp only [step, hcr, hi, Bool.false_eq_true, if_false]
          exact ⟨_, rfl, rfl⟩
        | sending r =>
          refine ⟨.emit i, ?_⟩
          obtain ⟨l1, l2, hws, _⟩ := workers_split st.workers i _ WorkerState.done hi
          rw [hws] at hlen
          simp only [List.map_append, List.map_cons, List.flatten_append, List.flatten_cons,
            heldPorts, List.length_append, List.length_cons, List.length_nil] at hlen
          simp only [step, hcr, hi, Bool.false_eq_true, if_false]
          rw [if_pos (by omega)]
          exact ⟨_, rfl, rfl⟩

/-- When the main goroutine has returned, with at least one worker, every port
has its result and the counters add up. -/
theorem returned_results {ports : List Int} {n : Nat} {st : RunState}
    (inv : RunInv ports n st) (hn : 1 ≤ n) (hret : st.returned = true) :
    (st.results.map (fun r => r.Port)).Perm ports ∧
    st.results.length = ports.length ∧
    st.stats.TotalPorts = (ports.length : Int) ∧
    st.stats.OpenPorts + st.stats.ClosedPorts + st.stats.FilteredPorts = st.stats.TotalPorts := by
  obtain ⟨hrc, hch⟩ := inv.returned_closed hret
  have hdone := inv.rclosed_done hrc
  have hw : st.workers = List.replicate st.workers.length WorkerState.done :=
    List.eq_replicate_iff.mpr ⟨rfl, hdone⟩
  have hne : ∃ w ∈ st.workers, w = WorkerState.done := by
    cases hws : st.workers with
    | nil =>
      have := inv.workers_length
      rw [hws] at this
      simp at this
      omega
    | cons w rest => exact ⟨w, by simp, hdone w (by rw [hws]; simp)⟩
  obtain ⟨hpc, hpch⟩ := inv.done_closed hne
  have hsent := inv.closed_sent hpc
  have hheld : (st.workers.map heldPorts).flatten = [] := by
    rw [List.flatten_eq_nil_iff]
    intro l hl
    obtain ⟨w, hw, rfl⟩ := List.mem_map.mp hl
    rw [hdone w hw]
    rfl
  have hcount : st.workers.countP isSending = 0 := by
    rw [List.countP_eq_zero]
    intro w hw
    rw [hdone w hw]
    simp [isSending]
  have hperm := inv.ports_perm
  rw [hsent, hpch, hheld, hch] at hperm
  simp only [List.nil_append, List.map_nil, List.append_nil] at hperm
  have hlen : st.results.length = ports.length := by
    have := hperm.length_eq
    simpa using this
  have hcounted := inv.counted
  rw [hcount, hch] at hcounted
  simp only [List.length_nil, Nat.add_zero, Nat.zero_add] at hcounted
  refine ⟨hperm, hlen, inv.total, ?_⟩
  rw [hcounted, inv.total, hlen]

/-- From every state of a run that has not crashed there is a way to the return
of the main goroutine. -/
theorem run_to_return {table : Nat → Nat} {ports : List Int} {n : Nat} (m : Nat)
    {st : RunState} (inv : RunInv ports n st) (hcr : st.crashed = false)
    (hm : measure st ≤ m) :
    ∃ sched st', run table sched st = some st' ∧ st'.returned = true ∧ st'.crashed = false := by
  induction m generalizing st with
  | zero =>
    cases hret : st.returned with
    | true => exact ⟨[], st, rfl, hret, hcr⟩
    | false =>
      obtain ⟨l, st', hs, _⟩ := @progress table _ _ _ inv hcr hret
      have := step_measure hs
      omega
  | succ m ih =>
    cases hret : st.returned with
    | true => exact ⟨[], st, rfl, hret, hcr⟩
    | false =>
      obtain ⟨l, st1, hs, hcr1⟩ := @progress table _ _ _ inv hcr hret
      have hlt := step_measure hs
      obtain ⟨sched, st', hrun, h1, h2⟩ := ih (step_inv inv hs) hcr1 (by omega)
      exact ⟨l :: sched, st', by rw [run, hs]; exact hrun, h1, h2⟩

end scanner

namespace scanner

theorem length_swapPorts (l : List Int) (i j : Nat) : (swapPorts l i j).length = l.length := by
  simp [swapPorts]

/-- Exchanging two elements of a slice leaves a permutation of it. -/
theorem swapPorts_perm (l : List Int) (i j : Nat) (hi : i < l.length) (hj : j < l.length) :
    (swapPorts l i j).Perm l := by
  unfold swapPorts
  rw [List.getD_eq_getElem _ _ hi, List.getD_eq_getElem _ _ hj]
  rw [List.perm_iff_count]
  intro a
  have hj2 : j < (l.set i l[j]).length := by simpa using hj
  have hget : (l.set i l[j])[j] = l[j] := by
    rw [List.getElem_set]
    split <;> rfl
  rw [List.count_set _ _ _ _ hj2, List.count_set _ _ _ _ hi, hget]
  have hi_le : (if l[i] == a then 1 else 0) ≤ l.count a := by
    by_cases hia : (l[i] == a) = true
    · rw [if_pos hia]
      have : a ∈ l := by
        have : l[i] = a := by simpa using hia
        rw [← this]
        exact List.getElem_mem _
      exact List.count_pos_iff.mpr this
    · rw [if_neg hia]
      omega
  omega

theorem shuffleLoop_perm (i : Nat) (seed : Int) (ports : List Int) (h : i < ports.length) :
    (shuffleLoop i seed ports).Perm ports := by
  induction i generalizing seed ports with
  | zero => exact List.Perm.refl _
  | succ i ih =>
    rw [shuffleLoop]
    have hj : (lcgNext seed % ((i : Int) + 1 + 1)).toNat < ports.length := by
      have h1 := Int.emod_nonneg (lcgNext seed) (show ((i : Int) + 1 + 1) ≠ 0 by omega)
      have h2 := Int.emod_lt_of_pos (lcgNext seed) (show (0 : Int) < (i : Int) + 1 + 1 by omega)
      omega
    exact (ih _ _ (by rw [length_swapPorts]; omega)).trans (swapPorts_perm _ _ _ h hj)

/-- The shuffle returns a permutation of the ports. -/
theorem customShufflePorts_perm (seed : Int) (ports : List Int) :
    (customShufflePorts seed ports).Perm ports := by
  unfold customShufflePorts
  split
  · exact List.Perm.refl _
  · exact shuffleLoop_perm _ _ _ (by omega)

end scanner

namespace scanner

theorem NewScanner_config (cfg : ScanConfig) :
    (NewScanner cfg).config.Host = cfg.Host ∧ (NewScanner cfg).config.Ports = cfg.Ports ∧
    (NewScanner cfg).config.RandomizeOrder = cfg.RandomizeOrder ∧
    (NewScanner cfg).config.MaxConcurrency =
      (if cfg.MaxConcurrency = 0 then 100 else cfg.MaxConcurrency) := by
  unfold NewScanner
  by_cases h1 : cfg.Timeout = 0 <;> by_cases h2 : cfg.MaxConcurrency = 0 <;> simp [h1, h2]

/-- The state a valid configuration starts its run in. -/
theorem scanStart_ok (s : Scanner) (seed : Int) (hhost : s.config.Host ≠ [])
    (hports : s.config.Ports ≠ []) :
    scanStart s seed = .ok (initialState s
      (if s.config.RandomizeOrder then customShufflePorts seed s.config.Ports
        else s.config.Ports)) := by
  unfold scanStart
  rw [if_neg hhost, if_neg (by simpa using hports)]

theorem started_perm (s : Scanner) (seed : Int) :
    (if s.config.RandomizeOrder then customShufflePorts seed s.config.Ports
      else s.config.Ports).Perm s.config.Ports := by
  split
  · exact customShufflePorts_perm _ _
  · exact List.Perm.refl _

/-- C8, the claim as stated fails for a negative concurrency: `NewScanner`
replaces only the value zero, no worker is started, the wait group is at zero
from the start, and `Scan` returns no result for the one port, with all three
counters at zero. -/
theorem Scan_negative_concurrency :
    ({ exampleConfig with Ports := [22], MaxConcurrency := -1 } : ScanConfig).Host ≠ [] ∧
    Scan id (NewScanner { exampleConfig with Ports := [22], MaxConcurrency := -1 }) 0
        [.send, .closePorts, .closeResults, .finish 0] =
      some { results := [], stats := { ScanStatistics.zero with TotalPorts := 1 }, err := none,
             probed := [] } := by
  decide

/-- C8 (amended): for every `ScanConfig` with a non-empty host, `K ≥ 1` ports
and a configured max concurrency `C ≥ 0` (zero stands for 100), every run of
`Scan` that returns does so without error, with exactly `K` results, one for
each entry of the port sequence (as a multiset of ports), and with statistics
where `TotalPorts = K` and `OpenPorts + ClosedPorts + FilteredPorts =
TotalPorts`.  Such a run exists; and every run takes at most as many steps as
the measure of its first state, and can go on as long as it has neither
returned nor been ended by a panic of a probe. -/
theorem Scan_results (table : Nat → Nat) (cfg : ScanConfig) (seed : Int)
    (hhost : cfg.Host ≠ []) (hports : cfg.Ports ≠ []) (hc : 0 ≤ cfg.MaxConcurrency) :
    (∀ sched r, Scan table (NewScanner cfg) seed sched = some r →
      r.err = none ∧ r.results.length = cfg.Ports.length ∧
      (r.results.map (fun x => x.Port)).Perm cfg.Ports ∧
      r.stats.TotalPorts = (cfg.Ports.length : Int) ∧
      r.stats.OpenPorts + r.stats.ClosedPorts + r.stats.FilteredPorts = r.stats.TotalPorts) ∧
    (∃ sched r, Scan table (NewScanner cfg) seed sched = some r) ∧
    (∃ st0, scanStart (NewScanner cfg) seed = .ok st0 ∧
      ∀ sched st, run table sched st0 = some st →
        sched.length ≤ measure st0 ∧
        (st.crashed = false → st.returned = false →
          ∃ l st', step table l st = some st' ∧ st'.crashed = false)) := by
  obtain ⟨hH, hP, _, hC⟩ := NewScanner_config cfg
  have hhost' : (NewScanner cfg).config.Host ≠ [] := by rw [hH]; exact hhost
  have hports' : (NewScanner cfg).config.Ports ≠ [] := by rw [hP]; exact hports
  have hstart := scanStart_ok (NewScanner cfg) seed hhost' hports'
  have hperm := started_perm (NewScanner cfg) seed
  rw [hP] at hperm
  have hn : 1 ≤ (NewScanner cfg).config.MaxConcurrency.toNat := by
    rw [hC]
    split <;> omega
  have inv0 := initialState_inv (NewScanner cfg)
    (if (NewScanner cfg).config.RandomizeOrder then
      customShufflePorts seed (NewScanner cfg).config.Ports
    else (NewScanner cfg).config.Ports)
  refine ⟨?_, ?_, ⟨_, hstart, ?_⟩⟩
  · intro sched r hr
    unfold Scan at hr
    rw [hstart] at hr
    simp only at hr
    split at hr
    · rename_i st hrun
      split at hr
      · rename_i hret
        cases hr
        obtain ⟨h1, h2, h3, h4⟩ := returned_results (run_inv sched inv0 hrun) hn hret.1
        rw [hP] at h1 h2 h3
        refine ⟨rfl, ?_, h1.trans hperm, ?_, h4⟩
        · rw [h2]
          exact hperm.length_eq
        · rw [h3, hperm.length_eq]
      · cases hr
    · cases hr
  · obtain ⟨sched, st', hrun, hret, hcr⟩ := @run_to_return table _ _ _ _ inv0 rfl (Nat.le_refl _)
    refine ⟨sched,
      { results := st'.results, stats := st'.stats, err := none, probed := st'.probed }, ?_⟩
    unfold Scan
    rw [hstart]
    simp only [hrun, hret, hcr, and_self, if_true]
  · intro sched st hrun
    refine ⟨?_, fun hcr hret => progress (run_inv sched inv0 hrun) hcr hret⟩
    have := run_measure sched hrun
    omega

/-- C8 (amended) at the example configuration and the example run: two results,
for the ports 80 and 22, one closed and one open. -/
theorem Scan_results_witness :
    (exampleConfig.Host ≠ [] ∧ exampleConfig.Ports ≠ [] ∧ 0 ≤ exampleConfig.MaxConcurrency) ∧
    ∃ r, Scan id (NewScanner exampleConfig) 7 exampleSchedule = some r ∧
      r.err = none ∧ r.results.length = exampleConfig.Ports.length ∧
      (r.results.map (fun x => x.Port)).Perm exampleConfig.Ports ∧
      r.stats.TotalPorts = (exampleConfig.Ports.length : Int) ∧
      r.stats.OpenPorts + r.stats.ClosedPorts + r.stats.FilteredPorts = r.stats.TotalPorts :=
  ⟨by decide,
   match h : Scan id (NewScanner exampleConfig) 7 exampleSchedule with
   | some r =>
     ⟨r, rfl, (Scan_results id exampleConfig 7 (by decide) (by decide) (by decide)).1
       exampleSchedule r h⟩
   | none => absurd h (by decide)⟩

/-- C9: `Scan` fails with an error, returning a nil result list and zero-valued
statistics and probing no port, if and only if the configured host is the empty
string or the configured port sequence is empty.  With such a configuration it
returns the error whatever the schedule; and a return with an error comes from
such a configuration only. -/
theorem Scan_fails_iff (table : Nat → Nat) (s : Scanner) (seed : Int) :
    ((s.config.Host = [] ∨ s.config.Ports = []) →
      ∀ sched, ∃ e, Scan table s seed sched =
        some { results := [], stats := ScanStatistics.zero, err := some e, probed := [] }) ∧
    (∀ sched r, Scan table s seed sched = some r → r.err ≠ none →
      (s.config.Host = [] ∨ s.config.Ports = []) ∧
      r.results = [] ∧ r.stats = ScanStatistics.zero ∧ r.probed = []) := by
  constructor
  · intro hbad sched
    unfold Scan scanStart
    by_cases hh : s.config.Host = []
    · rw [if_pos hh]
      exact ⟨_, rfl⟩
    · rw [if_neg hh]
      have hp : s.config.Ports.length = 0 := by
        rcases hbad with h | h
        · exact absurd h hh
        · rw [h]
          rfl
      rw [if_pos hp]
      exact ⟨_, rfl⟩
  · intro sched r hr herr
    unfold Scan scanStart at hr
    by_cases hh : s.config.Host = []
    · rw [if_pos hh] at hr
      cases hr
      exact ⟨Or.inl hh, rfl, rfl, rfl⟩
    · rw [if_neg hh] at hr
      by_cases hp : s.config.Ports.length = 0
      · rw [if_pos hp] at hr
        cases hr
        exact ⟨Or.inr (List.length_eq_zero.mp hp), rfl, rfl, rfl⟩
      · rw [if_neg hp] at hr
        simp only at hr
        split at hr
        · split at hr
          · cases hr
            exact absurd rfl herr
          · cases hr
        · cases hr

/-- The two failing configurations, an empty host and no port, and a valid one. -/
theorem Scan_examples :
    Scan id (NewScanner { exampleConfig with Host := [] }) 0 [] =
      some { results := [], stats := ScanStatistics.zero, err := some .emptyHost, probed := [] } ∧
    Scan id (NewScanner { exampleConfig with Ports := [] }) 0 [] =
      some { results := [], stats := ScanStatistics.zero, err := some .emptyPorts,
             probed := [] } ∧
    (Scan id (NewScanner exampleConfig) 7 exampleSchedule).map (fun r => (r.err, r.probed)) =
      some (none, [80, 22]) := by
  decide

end scanner

namespace scanner

/-- The generator stays in the 31 low bits, whatever the seed. -/
theorem lcgNext_range (seed : Int) : 0 ≤ lcgNext seed ∧ lcgNext seed < 2147483648 := by
  unfold lcgNext
  exact ⟨Int.emod_nonneg _ (by decide), Int.emod_lt_of_pos _ (by decide)⟩

/-- The index drawn at a step: Go's remainder of the seed is the mathematical one,
and lies between zero and the position the step is at. -/
theorem drawn_index (seed : Int) (i : Nat) :
    Int.tmod (lcgNext seed) ((i : Int) + 1 + 1) = lcgNext seed % ((i : Int) + 1 + 1) ∧
    0 ≤ Int.tmod (lcgNext seed) ((i : Int) + 1 + 1) ∧
    Int.tmod (lcgNext seed) ((i : Int) + 1 + 1) ≤ (i : Int) + 1 := by
  have h0 := (lcgNext_range seed).1
  have hpos : (0 : Int) < (i : Int) + 1 + 1 := by omega
  refine ⟨Int.tmod_eq_emod h0 (by omega), Int.tmod_nonneg _ h0, ?_⟩
  have := Int.tmod_lt_of_pos (lcgNext seed) hpos
  omega

theorem shuffleLoopChecked_eq (i : Nat) (seed : Int) (ports : List Int) (h : i < ports.length) :
    shuffleLoopChecked i seed ports = some (shuffleLoop i seed ports) := by
  induction i generalizing seed ports with
  | zero => rfl
  | succ i ih =>
    obtain ⟨heq, h0, hle⟩ := drawn_index seed i
    rw [shuffleLoopChecked, shuffleLoop]
    rw [if_pos ⟨h, h0, by omega⟩, heq]
    exact ih _ _ (by rw [length_swapPorts]; omega)

theorem shuffleIndices_bounds (i : Nat) (seed : Int) :
    ∀ p ∈ shuffleIndices i seed, 0 ≤ p.2 ∧ p.2 ≤ (p.1 : Int) ∧ 1 ≤ p.1 ∧ p.1 ≤ i := by
  induction i generalizing seed with
  | zero =>
    intro p hp
    simp [shuffleIndices] at hp
  | succ i ih =>
    intro p hp
    rw [shuffleIndices] at hp
    rcases List.mem_cons.mp hp with rfl | hp
    · obtain ⟨_, h0, hle⟩ := drawn_index seed i
      refine ⟨h0, ?_, by omega, Nat.le_refl _⟩
      push_cast
      exact hle
    · obtain ⟨h1, h2, h3, h4⟩ := ih _ p hp
      exact ⟨h1, h2, h3, by omega⟩

theorem shuffleIndices_fst (i : Nat) (seed : Int) :
    (shuffleIndices i seed).map (fun p => p.1) = (List.range' 1 i).reverse := by
  induction i generalizing seed with
  | zero => rfl
  | succ i ih =>
    rw [shuffleIndices]
    simp only [List.map_cons]
    rw [ih, List.range'_concat, List.reverse_append]
    simp [Nat.add_comm]

/-- C13: for every port slice and every seed, `customShufflePorts` exchanges
in-bounds positions only: its loop runs through the positions `i = n-1, ..., 1`,
at each of them the index `j` it draws satisfies `0 ≤ j ≤ i`, with `i` below the
length, so that the run with the bounds checks of the run time ends without a
panic, in the same slice.  The slice it leaves is a permutation of its input:
the same length and, for every port number, the same number of occurrences. -/
theorem customShufflePorts_permutation (seed : Int) (ports : List Int) :
    (∀ p ∈ customShuffleIndices seed ports.length,
      0 ≤ p.2 ∧ p.2 ≤ (p.1 : Int) ∧ p.1 < ports.length) ∧
    (customShuffleIndices seed ports.length).map (fun p => p.1) =
      (List.range' 1 (ports.length - 1)).reverse ∧
    customShufflePortsChecked seed ports = some (customShufflePorts seed ports) ∧
    (customShufflePorts seed ports).length = ports.length ∧
    (customShufflePorts seed ports).Perm ports ∧
    ∀ n, (customShufflePorts seed ports).count n = ports.count n := by
  have hperm := customShufflePorts_perm seed ports
  refine ⟨?_, ?_, ?_, hperm.length_eq, hperm, fun n => hperm.count_eq n⟩
  · intro p hp
    unfold customShuffleIndices at hp
    split at hp
    · simp at hp
    · obtain ⟨h1, h2, _, h4⟩ := shuffleIndices_bounds _ _ p hp
      exact ⟨h1, h2, by omega⟩
  · unfold customShuffleIndices
    split
    · rename_i h
      have : ports.length - 1 = 0 := by omega
      rw [this]
      rfl
    · exact shuffleIndices_fst _ _
  · unfold customShufflePortsChecked customShufflePorts
    split
    · rfl
    · exact shuffleLoopChecked_eq _ _ _ (by omega)

/-- The shuffle of five ports from the seeds 7 and 8, the positions exchanged
from the seed 7, and the shuffle from a negative seed. -/
theorem customShufflePorts_examples :
    customShufflePorts 7 [1, 2, 3, 4, 5] = [1, 3, 4, 5, 2] ∧
    customShufflePorts 8 [1, 2, 3, 4, 5] = [2, 5, 1, 3, 4] ∧
    customShuffleIndices 7 5 = [(4, 1), (3, 1), (2, 1), (1, 1)] ∧
    customShufflePortsChecked (-5) [21, 22, 80, 443, 8080] = some [21, 80, 443, 22, 8080] ∧
    customShufflePorts 7 [22] = [22] := by
  decide

/-- C11: the randomized port order is deterministic given the seed.  Two runs of
`customShufflePorts`, in any two worlds whose clocks give the same reading for
the seed and on the same input sequence, leave identical sequences, whatever
else differs between the worlds; the sequence is `customShufflePorts` of that
reading and of the input, a function of the two only. -/
theorem customShufflePorts_deterministic (w1 w2 : World) (ports1 ports2 : List Int)
    (hseed : w1.clock w1.reads = w2.clock w2.reads) (hports : ports1 = ports2) :
    (customShufflePortsIn w1 ports1).1 = (customShufflePortsIn w2 ports2).1 ∧
    (customShufflePortsIn w1 ports1).1 = customShufflePorts (w1.clock w1.reads) ports1 := by
  subst hports
  have key : ∀ w : World,
      (customShufflePortsIn w ports1).1 = customShufflePorts (w.clock w.reads) ports1 := by
    intro w
    unfold customShufflePortsIn customShufflePorts
    simp only [World.Println, World.UnixNano]
    split <;> rfl
  exact ⟨by rw [key w1, key w2, hseed], key w1⟩

/-- C11 at two worlds that agree on the next reading of the clock, 7, and on
nothing else: both runs leave the ports in the order 1, 3, 4, 5, 2. -/
theorem customShufflePorts_deterministic_witness :
    (exampleWorld.clock exampleWorld.reads = otherWorld.clock otherWorld.reads ∧
      exampleWorld.reads ≠ otherWorld.reads ∧ exampleWorld.stdout ≠ otherWorld.stdout ∧
      exampleWorld.clock 1 ≠ otherWorld.clock 4) ∧
    ((customShufflePortsIn exampleWorld [1, 2, 3, 4, 5]).1 =
        (customShufflePortsIn otherWorld [1, 2, 3, 4, 5]).1 ∧
      (customShufflePortsIn exampleWorld [1, 2, 3, 4, 5]).1 =
        customShufflePorts (exampleWorld.clock exampleWorld.reads) [1, 2, 3, 4, 5]) ∧
    (customShufflePortsIn exampleWorld [1, 2, 3, 4, 5]).1 = [1, 3, 4, 5, 2] :=
  ⟨by decide,
   customShufflePorts_deterministic exampleWorld otherWorld [1, 2, 3, 4, 5] [1, 2, 3, 4, 5]
     (by decide) rfl,
   by decide⟩

/-- What the run leaves in the world: one line on the standard output and, for
two ports or more, one reading of the clock taken. -/
theorem customShufflePortsIn_world (w : World) (ports : List Int) :
    (customShufflePortsIn w ports).2.stdout =
      w.stdout ++ [str "Shuffling ports using custom algorithm" ++ [10]] ∧
    (customShufflePortsIn w ports).2.reads = (if ports.length ≤ 1 then w.reads else w.reads + 1) ∧
    (customShufflePortsIn w ports).2.clock = w.clock := by
  unfold customShufflePortsIn
  simp only [World.Println, World.UnixNano]
  split <;> exact ⟨rfl, rfl, rfl⟩

end scanner

namespace Go

/-- A decoding step yields a rune in the range of its width, and takes no more
bytes than there are. -/
theorem decode_width (s0 : Nat) (rest : GoString) :
    runeOfWidth (DecodeRuneInString (s0 :: rest)).1 (DecodeRuneInString (s0 :: rest)).2 ∧
    (DecodeRuneInString (s0 :: rest)).2 ≤ (s0 :: rest).length := by
  unfold runeOfWidth RuneError
  by_cases h1 : s0 < 128
  · simp only [DecodeRuneInString, h1, if_true, List.length_cons]
    simp
  by_cases h2 : 194 ≤ s0 ∧ s0 ≤ 223
  · rcases rest with _ | ⟨s1, rest⟩ <;>
      simp only [DecodeRuneInString, h1, h2, if_false, if_true, and_self, isCont, RuneError,
        Bool.and_eq_true, decide_eq_true_eq, List.length_cons, List.length_nil] <;>
      (try split_ifs) <;> ((try simp); (try omega))
  by_cases h3 : 224 ≤ s0 ∧ s0 ≤ 239
  · rcases rest with _ | ⟨s1, _ | ⟨s2, rest⟩⟩ <;>
      simp only [DecodeRuneInString, h1, h2, h3, if_false, if_true, and_self, isCont, RuneError,
        Bool.and_eq_true, decide_eq_true_eq, List.length_cons, List.length_nil] <;>
      (try split_ifs) <;> (try simp) <;> (try omega)
  by_cases h4 : 240 ≤ s0 ∧ s0 ≤ 244
  · rcases rest with _ | ⟨s1, _ | ⟨s2, _ | ⟨s3, rest⟩⟩⟩ <;>
      simp only [DecodeRuneInString, h1, h2, h3, h4, if_false, if_true, and_self, isCont,
        RuneError, Bool.and_eq_true, decide_eq_true_eq, List.length_cons, List.length_nil] <;>
      (try split_ifs) <;> (try simp) <;> (try omega)
  · simp [DecodeRuneInString, h1, h2, h3, h4, RuneError]

/-- The bytes that `GetBody` writes for a decoded rune: as many as the rune took
in the banner, and three for the one byte of an invalid encoding. -/
theorem encode_width (r w : Nat) (h : runeOfWidth r w) :
    (if 65 ≤ r ∧ r ≤ 90 then EncodeRune (r + 32) else EncodeRune r).length =
      (if r = RuneError ∧ w = 1 then 3 else w) := by
  unfold runeOfWidth RuneError at h
  unfold EncodeRune RuneError
  rcases h with ⟨rfl, rfl⟩ | ⟨rfl, h⟩ | ⟨rfl, h⟩ | ⟨rfl, h⟩ | ⟨rfl, h⟩ <;>
    split_ifs <;> simp only [List.length_cons, List.length_nil] <;> omega

end Go

namespace scanner

/-- The lower-cased copy of `GetBody` is never shorter than the banner, and has
its length when the banner is valid UTF-8. -/
theorem lowerBannerAux_length (fuel : Nat) (s : GoString) (hlen : s.length ≤ fuel) :
    s.length ≤ (((runesAux fuel s).map
      (fun r => if 65 ≤ r ∧ r ≤ 90 then EncodeRune (r + 32) else EncodeRune r)).flatten).length ∧
    (ValidStringAux fuel s = true →
      (((runesAux fuel s).map
        (fun r => if 65 ≤ r ∧ r ≤ 90 then EncodeRune (r + 32) else EncodeRune r)).flatten).length =
        s.length) := by
  induction fuel generalizing s with
  | zero =>
    have : s = [] := List.length_eq_zero.mp (by omega)
    subst this
    exact ⟨Nat.le_refl _, fun _ => rfl⟩
  | succ fuel ih =>
    cases s with
    | nil => exact ⟨Nat.le_refl _, fun _ => rfl⟩
    | cons s0 rest =>
      obtain ⟨hw, hle⟩ := decode_width s0 rest
      have henc := encode_width _ _ hw
      have hpos : 1 ≤ (DecodeRuneInString (s0 :: rest)).2 := by
        unfold runeOfWidth at hw
        omega
      have hdrop : ((s0 :: rest).drop (DecodeRuneInString (s0 :: rest)).2).length ≤ fuel := by
        rw [List.length_drop]
        simp only [List.length_cons] at hlen ⊢
        omega
      obtain ⟨ih1, ih2⟩ := ih _ hdrop
      rw [runesAux, ValidStringAux]
      simp only [List.map_cons, List.flatten_cons, List.length_append]
      rw [henc]
      rw [List.length_drop] at ih1 ih2
      constructor
      · split <;> omega
      · intro hv
        split at hv
        · cases hv
        · rename_i hne
          rw [if_neg hne, ih2 hv]
          omega

theorem lowerBanner_length (banner : GoString) :
    banner.length ≤ (lowerBanner banner).length ∧
    (ValidString banner = true → (lowerBanner banner).length = banner.length) :=
  lowerBannerAux_length _ _ (Nat.le_refl _)

end scanner

namespace scanner

/-- The closing tag is found at a position of the lower-cased copy, with the
seven bytes of the tag and one more behind it. -/
theorem findBodyEnd_lt {lower : GoString} {e : Nat} (h : findBodyEnd lower = some e) :
    e + 7 < lower.length := by
  unfold findBodyEnd at h
  have := List.mem_range.mp (List.mem_of_find?_eq_some h)
  omega

/-- When `GetBody` panics: both tags are found in the lower-cased copy, the
opening one first, and the position of the closing one is beyond the end of the
banner itself. -/
theorem GetBody_eq_none_iff (banner : GoString) :
    GetBody banner = none ↔
      ∃ s e, findBodyStart (lowerBanner banner) = some s ∧
        findBodyEnd (lowerBanner banner) = some e ∧ s < e ∧ banner.length < e := by
  unfold GetBody
  simp only
  cases hs : findBodyStart (lowerBanner banner) with
  | none => simp
  | some s =>
    cases he : findBodyEnd (lowerBanner banner) with
    | none => simp
    | some e =>
      simp only [Option.some.injEq, exists_and_left, exists_eq_left']
      by_cases hlt : s < e
      · rw [if_pos hlt]
        by_cases hle : e ≤ banner.length
        · rw [if_pos hle]
          simp only [reduceCtorEq, false_iff, not_and, not_lt]
          intro _
          exact hle
        · rw [if_neg hle]
          simp only [true_iff]
          exact ⟨hlt, by omega⟩
      · rw [if_neg hlt]
        simp only [reduceCtorEq, false_iff, not_and, not_lt]
        intro h
        exact absurd h hlt

/-- When the lower-cased copy is no longer than the banner, `GetBody` returns, and
what it returns is a contiguous part of the banner. -/
theorem GetBody_returns (banner : GoString)
    (h : (lowerBanner banner).length ≤ banner.length) :
    ∃ r, GetBody banner = some r ∧ r <:+: banner := by
  unfold GetBody
  simp only
  cases hs : findBodyStart (lowerBanner banner) with
  | none => exact ⟨[], rfl, List.nil_infix⟩
  | some s =>
    cases he : findBodyEnd (lowerBanner banner) with
    | none => exact ⟨[], rfl, List.nil_infix⟩
    | some e =>
      simp only
      by_cases hlt : s < e
      · have hle : e ≤ banner.length := by
          have := findBodyEnd_lt he
          omega
        rw [if_pos hlt, if_pos hle]
        exact ⟨_, rfl, (List.drop_suffix s _).isInfix.trans (List.take_prefix e banner).isInfix⟩
      · rw [if_neg hlt]
        exact ⟨[], rfl, List.nil_infix⟩

/-- The runes of an ASCII string are its bytes. -/
theorem runesAux_ascii (fuel : Nat) (s : GoString) (hlen : s.length ≤ fuel)
    (h : ∀ x ∈ s, x < 128) : runesAux fuel s = s := by
  induction fuel generalizing s with
  | zero =>
    have : s = [] := List.length_eq_zero.mp (by omega)
    subst this
    rfl
  | succ fuel ih =>
    cases s with
    | nil => rfl
    | cons s0 rest =>
      have h0 : s0 < 128 := h s0 (List.mem_cons_self _ _)
      have hd : DecodeRuneInString (s0 :: rest) = (s0, 1) := by simp [DecodeRuneInString, h0]
      rw [runesAux, hd]
      simp only [List.drop_succ_cons, List.drop_zero]
      rw [ih rest (by simpa using hlen) (fun x hx => h x (List.mem_cons_of_mem _ hx))]

/-- On an ASCII banner the lower-cased copy has the capitals made small, byte by
byte, and so the length of the banner. -/
theorem lowerBanner_ascii (banner : GoString) (h : ∀ x ∈ banner, x < 128) :
    lowerBanner banner = banner.map (fun r => if 65 ≤ r ∧ r ≤ 90 then r + 32 else r) := by
  unfold lowerBanner runes
  rw [runesAux_ascii _ _ (Nat.le_refl _) h]
  induction banner with
  | nil => rfl
  | cons r l ih =>
    have hr := h r (List.mem_cons_self _ _)
    rw [List.map_cons, List.flatten_cons, ih (fun x hx => h x (List.mem_cons_of_mem _ hx)),
      List.map_cons]
    by_cases hc : 65 ≤ r ∧ r ≤ 90
    · have : r + 32 < 128 := by omega
      simp [EncodeRune, hc, this]
    · simp [EncodeRune, hc, hr]

/-- What `cleanBanner` returns is ASCII. -/
theorem cleanBanner_ascii (banner : GoString) : ∀ x ∈ cleanBanner banner, x < 128 := by
  have hkept : ∀ r ∈ banner.filter keepRune, keepRune r = true := fun r hr =>
    (List.mem_filter.mp hr).2
  have hdots : str "..." = [46, 46, 46] := by decide
  intro x hx
  unfold cleanBanner at hx
  simp only [filter_runes, encode_kept _ hkept] at hx
  split at hx
  · rcases List.mem_append.mp hx with h | h
    · exact keepRune_lt (hkept x (List.mem_of_mem_take h))
    · rw [hdots] at h
      simp only [List.mem_cons, List.mem_singleton, List.not_mem_nil, or_false, or_self] at h
      omega
  · exact keepRune_lt (hkept x hx)

/-- On an ASCII banner `GetBody` returns, a contiguous part of the banner. -/
theorem GetBody_ascii (banner : GoString) (h : ∀ x ∈ banner, x < 128) :
    ∃ r, GetBody banner = some r ∧ r <:+: banner :=
  GetBody_returns banner (by rw [lowerBanner_ascii banner h, List.length_map])

/-- On a banner that went through `cleanBanner`, as the name of its parameter
`cleanedBanner` has it, `GetBody` returns. -/
theorem GetBody_cleanBanner (banner : GoString) :
    ∃ r, GetBody (cleanBanner banner) = some r ∧ r <:+: cleanBanner banner :=
  GetBody_ascii _ (cleanBanner_ascii banner)

/-- On a banner that is valid UTF-8 `GetBody` returns, a contiguous part of the
banner. -/
theorem GetBody_valid (banner : GoString) (h : ValidString banner = true) :
    ∃ r, GetBody banner = some r ∧ r <:+: banner :=
  GetBody_returns banner (by rw [(lowerBanner_length banner).2 h])

/-- C12: `GetBody` does not return on the banner `<body>`, five bytes `0xE9`
(the letter e with an acute accent in Latin-1, not valid UTF-8), `</body>` and a
newline.  The banner has 19 bytes; in the lower-cased copy each of the five
bytes has become the three bytes of U+FFFD, so the copy has 29 bytes and the
closing tag is found in it at 21; `bodyStart` is 6, and the slice
`cleanedBanner[6:21]` of a string of 19 bytes is out of range.  `ScanPort`, which
passes the bytes read from the network, does not return either. -/
theorem GetBody_slice_out_of_range :
    GetBody (str "<body>" ++ [233, 233, 233, 233, 233] ++ str "</body>\n") = none ∧
    (str "<body>" ++ [233, 233, 233, 233, 233] ++ str "</body>\n").length = 19 ∧
    (lowerBanner (str "<body>" ++ [233, 233, 233, 233, 233] ++ str "</body>\n")).length = 29 ∧
    findBodyStart (lowerBanner (str "<body>" ++ [233, 233, 233, 233, 233] ++ str "</body>\n")) =
      some 6 ∧
    findBodyEnd (lowerBanner (str "<body>" ++ [233, 233, 233, 233, 233] ++ str "</body>\n")) =
      some 21 ∧
    ScanPort id signatures (str "10.1.2.3") 80
      (.connected (some (str "<body>" ++ [233, 233, 233, 233, 233] ++ str "</body>\n"))) = none := by
  decide

/-- With a single invalid byte in front the slice stays in range, two positions
late: the result is a contiguous part of the banner, but not the body. -/
theorem GetBody_shifted :
    GetBody ([255] ++ str "<body>hi</body>\n") = some (str "</") := by
  decide

end scanner
